import Mathlib

/-!
Verification development for the chunked, resumable upload pipeline of the
wedding-website repository.

The model is a shallow embedding of:
 - the client-side `ChunkedUploadManager` (upload-manager module): managed
   files, queue positions, single-active-file scheduling, chunk bookkeeping;
 - the server routes: chunk store (`api/chunked-upload/chunk`), completion
   (`api/chunked-upload/complete`), targeted cleanup and the orphan sweep
   (`api/chunked-upload/cleanup`, `cleanup-orphaned`);
 - the chunk-scheduler event loop (`uploadChunks`), embedded as a
   deterministic discrete-event simulation of the browser event loop.

File bytes are `List Nat`; blob storage is a list of (pathname, bytes)
pairs.  The external blob store (`put`/`list`/`del` of the temporary
chunk-storage collaborator) is modelled with the boundary contract stated
in the design: `put` stores at the given pathname, overwriting in place;
`list` filters by pathname prefix; `del` removes one object.
-/

/-! ## Chunk splitting (client, uploadChunk byte-range extraction) -/

/-- Total chunk count, from `Math.ceil(file.size / chunkSize)` in `addFiles`. -/
def totalChunksOf (size chunkSize : Nat) : Nat :=
  (size + chunkSize - 1) / chunkSize

/-- Byte slice of chunk `i`: `file.slice(start, end)` with
`start = chunkIndex * chunkSize` and `end = min(start + chunkSize, file.size)`,
from `uploadChunk`. -/
def chunkSliceOf (file : List Nat) (chunkSize i : Nat) : List Nat :=
  let start := i * chunkSize
  let stop := min (start + chunkSize) file.length
  (file.drop start).take (stop - start)

/-! ## Filename sanitization (complete route) -/

/-- ASCII word character, the `\w` class of the sanitizing regex. -/
def jsWordChar (c : Char) : Bool :=
  c.isAlphanum || c == '_'

/-- Whitespace characters matched by the `\s` class of the sanitizing regex. -/
def jsWhitespaceChar (c : Char) : Bool :=
  [' ', '\t', '\n', '\r', '\x0B', '\x0C', '\u00A0', '\u1680',
   '\u2000', '\u2001', '\u2002', '\u2003', '\u2004', '\u2005', '\u2006',
   '\u2007', '\u2008', '\u2009', '\u200A', '\u2028', '\u2029', '\u202F',
   '\u205F', '\u3000', '\uFEFF'].contains c

/-- A character kept unchanged by `filename.replace(/[^\w\s.-]/g, "_")`. -/
def keepChar (c : Char) : Bool :=
  jsWordChar c || jsWhitespaceChar c || c == '.' || c == '-'

/-- The sanitized filename: every character outside `[\w\s.-]` becomes `'_'`. -/
def sanitizeFilename (name : List Char) : List Char :=
  name.map (fun c => if keepChar c then c else '_')

/-! ## Character-list string operations

Pathname manipulation is modelled over `List Char` (the character sequence
of a JavaScript string), with structural implementations of the string
operations the routes use, so that every definition evaluates inside the
kernel. -/

/-- Character sequence of a pathname or id. -/
abbrev Str := List Char

/-- Whether the first list starts with the second (prefix listing and the
`startsWith` checks). -/
def strStartsWith : Str → Str → Bool
  | _, [] => true
  | [], _ :: _ => false
  | a :: s, b :: p => a == b && strStartsWith s p

/-- Split at the first occurrence of a non-empty separator: the part before
it and the remainder after it. -/
def splitFirst (sep : Str) : Str → Option (Str × Str)
  | [] => none
  | c :: rest =>
    if strStartsWith (c :: rest) sep then some ([], (c :: rest).drop sep.length)
    else (splitFirst sep rest).map (fun p => (c :: p.1, p.2))

/-- Fuelled worker for `strSplitOn`. -/
def strSplitOnFuel : Nat → Str → Str → List Str
  | 0, _, s => [s]
  | fuel + 1, sep, s =>
    match splitFirst sep s with
    | none => [s]
    | some (pre1, rest) => pre1 :: strSplitOnFuel fuel sep rest

/-- The `split` of JavaScript strings, for a non-empty separator. -/
def strSplitOn (sep s : Str) : List Str :=
  strSplitOnFuel (s.length + 1) sep s

/-- `Number.parseInt(s, 10)`: parse the leading decimal digits; none when
there is no leading digit. -/
def parseIntList (s : Str) : Option Nat :=
  let digits := s.takeWhile (fun c => c.isDigit)
  if digits.isEmpty then none
  else some (digits.foldl (fun acc c => acc * 10 + (c.toNat - 48)) 0)

/-- Fuelled worker for `natToChars`. -/
def natToCharsAux : Nat → Nat → Str
  | 0, _ => []
  | fuel + 1, n =>
    if n < 10 then [Char.ofNat (48 + n)]
    else natToCharsAux fuel (n / 10) ++ [Char.ofNat (48 + n % 10)]

/-- Decimal digit sequence of a number (interpolation of the chunk index
into the storage pathname). -/
def natToChars (n : Nat) : Str :=
  natToCharsAux (n + 1) n

/-! ## Blob store and the chunk endpoint -/

/-- One stored blob: pathname and payload bytes. -/
abbrev BlobStore := List (Str × List Nat)

/-- Pathname used by the chunk endpoint:
`uploads/UPLOADID/chunk-INDEX.bin`. -/
def chunkKey (uploadId : Str) (chunkIndex : Nat) : Str :=
  "uploads/".data ++ uploadId ++ "/chunk-".data ++ natToChars chunkIndex ++ ".bin".data

/-- Blob `put` with the collaborator contract: storing at an existing
pathname overwrites that object in place; a new pathname is appended. -/
def blobPut (store : BlobStore) (key : Str) (bytes : List Nat) : BlobStore :=
  if store.any (fun b => b.1 == key) then
    store.map (fun b => if b.1 == key then (key, bytes) else b)
  else
    store ++ [(key, bytes)]

/-- The chunk endpoint: validates the upload id and stores the chunk bytes
at `uploads/UPLOADID/chunk-INDEX.bin` (a 400 response leaves the store
unchanged). -/
def chunkEndpointPost (store : BlobStore) (uploadId : Str) (chunkIndex : Nat)
    (bytes : List Nat) : BlobStore :=
  if uploadId = [] then store
  else blobPut store (chunkKey uploadId chunkIndex) bytes

/-- Sending every index of `idxs` in order, each send carrying that chunk of
the file (retries recompute the same slice). -/
def sendSeq (file : List Nat) (chunkSize : Nat) (uploadId : Str)
    (idxs : List Nat) : BlobStore :=
  idxs.foldl
    (fun st i => chunkEndpointPost st uploadId i (chunkSliceOf file chunkSize i)) []

/-! ## Completion route -/

/-- Numeric index parsed from a storage key:
`Number.parseInt(pathname.split("chunk-")[1].split(".")[0], 10)`. -/
def parseChunkIndex (pathname : Str) : Nat :=
  (parseIntList ((strSplitOn ".".data
    ((strSplitOn "chunk-".data pathname).getD 1 [])).headD [])).getD 0

/-- The chunks listed for an upload id: `list({ prefix })` with prefix
`uploads/UPLOADID/chunk-`. -/
def listChunks (store : BlobStore) (uploadId : Str) : BlobStore :=
  store.filter (fun b => strStartsWith b.1 ("uploads/".data ++ uploadId ++ "/chunk-".data))

/-- Comparator of the completion route: ascending numeric index parsed from
the storage key. -/
def chunkLE (a b : Str × List Nat) : Prop :=
  parseChunkIndex a.1 ≤ parseChunkIndex b.1

instance : DecidableRel chunkLE := fun a b => by
  unfold chunkLE; infer_instance

/-- Request body of the completion route. -/
structure CompleteRequest where
  uploadId : Str
  filename : List Char
  contentType : String
  totalChunks : Nat
deriving DecidableEq, Repr

/-- Result of the completion route.  `ok` records what is forwarded to the
storage backend (reassembled bytes, sanitized filename, content type) and
the `chunksCleanedUp` count of the response; a media item is created on the
backend exactly on `ok`. -/
inductive CompleteResult where
  | missingFields
  | countMismatch (received expected : Nat)
  | ok (bytes : List Nat) (filename : List Char) (contentType : String)
      (chunksCleanedUp : Nat)
deriving DecidableEq, Repr

/-- True exactly when the completion result created a media item. -/
def mediaCreated : CompleteResult → Bool
  | .ok _ _ _ _ => true
  | _ => false

/-- The completion route: validate fields, list the chunks for the upload id,
fail with a count-mismatch when the number found differs from `totalChunks`,
otherwise sort by parsed numeric index, concatenate, sanitize the filename
and forward to the storage backend. -/
def completeUpload (store : BlobStore) (req : CompleteRequest) : CompleteResult :=
  if req.uploadId = [] ∨ req.filename = [] ∨ req.contentType = "" ∨ req.totalChunks = 0 then
    .missingFields
  else
    let blobs := listChunks store req.uploadId
    if blobs.length ≠ req.totalChunks then
      .countMismatch blobs.length req.totalChunks
    else
      let sortedBlobs := List.insertionSort chunkLE blobs
      let combined := (sortedBlobs.map (fun b => b.2)).flatten
      .ok combined (sanitizeFilename req.filename) req.contentType sortedBlobs.length

/-- The canonical fully-stored chunk set of a file under one upload id. -/
def canonChunks (uploadId : Str) (file : List Nat) (chunkSize n : Nat) : BlobStore :=
  (List.range n).map (fun i => (chunkKey uploadId i, chunkSliceOf file chunkSize i))

/-! ## Orphan sweep (cleanup-orphaned route) -/

/-- One stored blob as seen by the sweep: pathname and upload timestamp
(milliseconds since epoch). -/
structure SweepBlob where
  pathname : Str
  uploadedAt : Nat
deriving DecidableEq, Repr

/-- Upload id extracted from a pathname: the second `/`-separated segment
when the first is `uploads`. -/
def uploadIdOf (b : SweepBlob) : Option Str :=
  let parts := strSplitOn "/".data b.pathname
  if 2 ≤ parts.length ∧ parts.headD [] = "uploads".data then some (parts.getD 1 [])
  else none

/-- The 24-hour orphan threshold in milliseconds. -/
def orphanThresholdMs : Nat := 24 * 60 * 60 * 1000

/-- All blobs of one upload group. -/
def groupOf (blobs : List SweepBlob) (id : Str) : List SweepBlob :=
  blobs.filter (fun b => uploadIdOf b == some id)

/-- The oldest `uploadedAt` of a group, via the route reduce that keeps the
earlier-timestamped blob. -/
def oldestUploadedAt : List SweepBlob → Nat
  | [] => 0
  | b :: rest => rest.foldl (fun acc c => if c.uploadedAt < acc then c.uploadedAt else acc) b.uploadedAt

/-- A group is orphaned when its oldest blob is strictly older than the
threshold. -/
def isOrphanGroup (now : Nat) (blobs : List SweepBlob) (id : Str) : Bool :=
  decide ((now : Int) - (oldestUploadedAt (groupOf blobs id) : Int) > (orphanThresholdMs : Int))

/-- Upload ids grouped in first-occurrence order (Map insertion order). -/
def groupIds (blobs : List SweepBlob) : List Str :=
  blobs.foldl
    (fun acc b =>
      match uploadIdOf b with
      | some id => if id ∈ acc then acc else acc ++ [id]
      | none => acc)
    []

/-- Whether the sweep attempts to delete blob `b`: it belongs to a group
whose oldest member exceeds the threshold. -/
def sweepTargets (now : Nat) (blobs : List SweepBlob) (b : SweepBlob) : Bool :=
  match uploadIdOf b with
  | some id => isOrphanGroup now blobs id
  | none => false

/-- Process one list of group ids: accumulate deleted/failed counts and
remove successfully deleted blobs from the store.  `delOk` tells whether an
individual `del` call succeeds. -/
def sweepGo (now : Nat) (blobs : List SweepBlob) (delOk : Str → Bool) :
    List Str → Nat × Nat × List SweepBlob → Nat × Nat × List SweepBlob
  | [], acc => acc
  | id :: rest, (d, f, store) =>
    if isOrphanGroup now blobs id then
      let g := groupOf blobs id
      sweepGo now blobs delOk rest
        (d + (g.filter (fun b => delOk b.pathname)).length,
         f + (g.filter (fun b => !delOk b.pathname)).length,
         store.filter (fun b => !(uploadIdOf b == some id && delOk b.pathname)))
    else
      sweepGo now blobs delOk rest (d, f, store)

/-- The orphan sweep: group all chunk blobs by upload id, delete the groups
whose oldest blob is older than 24 hours, count successful and failed
deletions.  Returns (deletedCount, failedCount, remaining store). -/
def sweepOrphaned (now : Nat) (blobs : List SweepBlob) (delOk : Str → Bool) :
    Nat × Nat × List SweepBlob :=
  sweepGo now blobs delOk (groupIds blobs) (0, 0, blobs)

/-! ## Targeted cleanup route -/

/-- The targeted cleanup route: list every blob under `uploads/UPLOADID/`,
delete each (tolerating individual failures), return
(deletedCount, failedCount, remaining store). -/
def cleanupUploadPost (store : List SweepBlob) (uploadId : Str)
    (delOk : Str → Bool) : Nat × Nat × List SweepBlob :=
  if uploadId = [] then (0, 0, store)
  else
    let pre := "uploads/".data ++ uploadId ++ "/".data
    let blobs := store.filter (fun b => strStartsWith b.pathname pre)
    ((blobs.filter (fun b => delOk b.pathname)).length,
     (blobs.filter (fun b => !delOk b.pathname)).length,
     store.filter (fun b => !(strStartsWith b.pathname pre && delOk b.pathname)))

/-! ## The ChunkedUploadManager state model

State and operations of `ChunkedUploadManager`.  Browser-only fields of
`ChunkedFile` (the `File` handle, object-URL preview, display name and mime
type) are omitted; the time-and-random string ids are modelled as fresh
numbers drawn from a counter.  Each operation below is the synchronous
state effect of the corresponding method; the asynchronous queue-processing
pass (`processQueue` / `uploadFile`) is split at its suspension points into
scheduler steps of the `Step` relation further down. -/

inductive FileStatus where
  | pending | queued | uploading | paused | completed | error
deriving DecidableEq, Repr

inductive ChunkStatus where
  | pending | uploading | completed | error
deriving DecidableEq, Repr

/-- One entry of a managed file's `chunks` array. -/
structure FileChunk where
  index : Nat
  status : ChunkStatus
  retries : Nat
deriving DecidableEq, Repr

/-- A managed file (`ChunkedFile`). -/
structure ChunkedFile where
  id : Nat
  size : Nat
  chunkSize : Nat
  totalChunks : Nat
  uploadedChunks : Nat
  status : FileStatus
  progress : Nat
  retries : Nat
  queuePosition : Option Nat
  chunks : List FileChunk
deriving DecidableEq, Repr

/-- The scheduler-relevant options of `ChunkUploadOptions`. -/
structure ChunkUploadOptions where
  chunkSize : Nat
  maxRetries : Nat
  retryDelay : Nat
  maxConcurrentChunks : Nat
deriving DecidableEq, Repr

/-- The `defaultOptions` of the source: 2 MB chunks, 3 retries, 2000 ms
delay, 3 concurrent chunks. -/
def defaultOptions : ChunkUploadOptions :=
  ⟨2 * 1024 * 1024, 3, 2000, 3⟩

/-- Instance state of `ChunkedUploadManager`.  `inFlight` is the id of the
file whose `uploadFile` pass is currently suspended at an await, if any;
`processingQueue` of the source is true exactly when `inFlight.isSome`. -/
structure ManagerState where
  opts : ChunkUploadOptions
  files : List ChunkedFile
  uploadQueue : List Nat
  paused : Bool
  activeFileId : Option Nat
  inFlight : Option Nat
  nextId : Nat
deriving Repr

/-- A freshly constructed manager. -/
def initialState (opts : ChunkUploadOptions) : ManagerState :=
  ⟨opts, [], [], false, none, none, 0⟩

/-- Count of chunks whose status is `completed`. -/
def countCompleted (cs : List FileChunk) : Nat :=
  cs.countP (fun c => c.status == .completed)

/-- `Math.round((completedChunks / totalChunks) * 100)` over naturals:
round half up of `100 * completed / total`. -/
def roundPct (completed total : Nat) : Nat :=
  (200 * completed + total) / (2 * total)

/-- Map an update over every file with the given id (the source updates
files by rebuilding the array with `files.map`). -/
def updFiles (files : List ChunkedFile) (fid : Nat)
    (g : ChunkedFile → ChunkedFile) : List ChunkedFile :=
  files.map (fun f => if f.id = fid then g f else f)

/-- `updateFileStatus(fileId, status, queuePosition?)`: sets the status and,
when a queue position is supplied, the position. -/
def updateFileStatus (files : List ChunkedFile) (fid : Nat) (st : FileStatus)
    (pos : Option Nat) : List ChunkedFile :=
  updFiles files fid (fun f =>
    { f with status := st,
             queuePosition := match pos with | some p => some p | none => f.queuePosition })

/-- Replace the status of the chunk at a position (`chunks[chunkIndex] =
{...chunks[chunkIndex], status}`); out-of-range positions change nothing. -/
def setChunkStatus : List FileChunk → Nat → ChunkStatus → List FileChunk
  | [], _, _ => []
  | c :: rest, 0, st => { c with status := st } :: rest
  | c :: rest, n + 1, st => c :: setChunkStatus rest n st

/-- Replace the retry count of the chunk at a position. -/
def setChunkRetries : List FileChunk → Nat → Nat → List FileChunk
  | [], _, _ => []
  | c :: rest, 0, r => { c with retries := r } :: rest
  | c :: rest, n + 1, r => c :: setChunkRetries rest n r

/-- `updateChunkStatus`: set one chunk's status and recompute
`uploadedChunks` as the count of completed chunks. -/
def updateChunkStatus (files : List ChunkedFile) (fid idx : Nat)
    (st : ChunkStatus) : List ChunkedFile :=
  updFiles files fid (fun f =>
    let cs := setChunkStatus f.chunks idx st
    { f with chunks := cs, uploadedChunks := countCompleted cs })

/-- `updateChunkRetries`: set one chunk's retry count. -/
def updateChunkRetries (files : List ChunkedFile) (fid idx r : Nat) :
    List ChunkedFile :=
  updFiles files fid (fun f => { f with chunks := setChunkRetries f.chunks idx r })

/-- `updateFileProgress`: recompute the completed-chunk count and
`progress = round(completed / totalChunks * 100)`. -/
def updateFileProgress (files : List ChunkedFile) (fid : Nat) : List ChunkedFile :=
  updFiles files fid (fun f =>
    { f with progress := roundPct (countCompleted f.chunks) f.totalChunks,
             uploadedChunks := countCompleted f.chunks })

/-- Eligibility filter of `updateQueuePositions`: not completed, not error,
not uploading, and not the active file. -/
def eligibleForQueue (active : Option Nat) (f : ChunkedFile) : Bool :=
  f.status != .completed && f.status != .error && f.status != .uploading &&
    some f.id != active

/-- First index of a value in a list of ids. -/
def idxOf? (a : Nat) : List Nat → Option Nat
  | [] => none
  | b :: t => if b = a then some 0 else (idxOf? a t).map (fun i => i + 1)

/-- `updateQueuePositions`: rebuild `uploadQueue` from the eligible files in
array order, mark each eligible file `queued` and store its 0-based
position. -/
def updateQueuePositions (s : ManagerState) : ManagerState :=
  let ids := (s.files.filter (eligibleForQueue s.activeFileId)).map (fun f => f.id)
  let files := s.files.map (fun f =>
    match idxOf? f.id ids with
    | some i => { f with status := .queued, queuePosition := some i }
    | none => f)
  { s with files := files, uploadQueue := ids }

/-- The trigger condition at the end of `updateQueuePositions`: with no
active file, not paused and a non-empty queue, a `processQueue` pass is
scheduled. -/
def processKick (s : ManagerState) : Bool :=
  s.activeFileId.isNone && !s.paused && !s.uploadQueue.isEmpty

/-- The per-index chunk entries created by `addFiles`. -/
def mkChunks (n : Nat) : List FileChunk :=
  (List.range n).map (fun i => ⟨i, .pending, 0⟩)

/-- The `ChunkedFile` record built by `addFiles` for one file: initial
status `queued` when a file is active, else `pending`. -/
def mkChunkedFile (id size chunkSize : Nat) (active : Option Nat) : ChunkedFile :=
  { id := id, size := size, chunkSize := chunkSize,
    totalChunks := totalChunksOf size chunkSize,
    uploadedChunks := 0,
    status := if active.isSome then .queued else .pending,
    progress := 0, retries := 0, queuePosition := none,
    chunks := mkChunks (totalChunksOf size chunkSize) }

/-- `addFiles`: append one managed file per input size, then recompute
queue positions. -/
def addFiles (s : ManagerState) (sizes : List Nat) : ManagerState :=
  let newFiles := sizes.enum.map
    (fun p => mkChunkedFile (s.nextId + p.1) p.2 s.opts.chunkSize s.activeFileId)
  updateQueuePositions
    { s with files := s.files ++ newFiles, nextId := s.nextId + sizes.length }

/-- `abortUpload`: reset the file to `pending`; clear the active slot when
it was the active file. -/
def abortUpload (s : ManagerState) (fid : Nat) : ManagerState :=
  let s1 := { s with files := updateFileStatus s.files fid .pending none }
  if s1.activeFileId = some fid then { s1 with activeFileId := none } else s1

/-- `removeFile`: abort if removing the active file, drop the file, then
recompute queue positions. -/
def removeFile (s : ManagerState) (fid : Nat) : ManagerState :=
  let s1 :=
    if s.files.any (fun f => f.id == fid) && s.activeFileId == some fid then
      abortUpload s fid
    else s
  updateQueuePositions { s1 with files := s1.files.filter (fun f => f.id != fid) }

/-- `pauseAll`: set the paused flag and mark the active file `paused`. -/
def pauseAll (s : ManagerState) : ManagerState :=
  let files := match s.activeFileId with
    | some fid => updateFileStatus s.files fid .paused none
    | none => s.files
  { s with paused := true, files := files }

/-- `resumeAll`: clear the paused flag; a paused active file returns to
`pending`. -/
def resumeAll (s : ManagerState) : ManagerState :=
  let files := match s.activeFileId with
    | some fid =>
      match s.files.find? (fun f => f.id == fid) with
      | some f => if f.status = .paused then updateFileStatus s.files fid .pending none
                  else s.files
      | none => s.files
    | none => s.files
  { s with paused := false, files := files }

/-- `startUpload`: clear the paused flag and recompute queue positions. -/
def startUpload (s : ManagerState) : ManagerState :=
  updateQueuePositions { s with paused := false }

/-- Chunk reset of `retryFailed`: every `error` chunk returns to
`pending` (each reset goes through `updateChunkStatus`, which recomputes
`uploadedChunks`). -/
def resetErrorChunks (cs : List FileChunk) : List FileChunk :=
  cs.map (fun c => if c.status = .error then { c with status := .pending } else c)

/-- Per-file effect of `retryFailed` on an errored file. -/
def retryFailedReset (f : ChunkedFile) : ChunkedFile :=
  if f.status = .error then
    let cs := resetErrorChunks f.chunks
    { f with status := .pending, chunks := cs, uploadedChunks := countCompleted cs }
  else f

/-- `retryFailed`: reset every `error` file and its failed chunks to
`pending`, then recompute queue positions. -/
def retryFailed (s : ManagerState) : ManagerState :=
  updateQueuePositions { s with files := s.files.map retryFailedReset }

/-- Per-file effect of `cancelAll`: uploading, paused and queued files
return to `pending`. -/
def cancelReset (f : ChunkedFile) : ChunkedFile :=
  if f.status = .uploading ∨ f.status = .paused ∨ f.status = .queued then
    { f with status := .pending }
  else f

/-- `cancelAll` (and the state effect of `cancelAllWithCleanup`): abort
everything, reset non-terminal files to `pending`, clear the active slot,
recompute queue positions. -/
def cancelAll (s : ManagerState) : ManagerState :=
  updateQueuePositions
    { s with files := s.files.map cancelReset, activeFileId := none }

/-- `clearCompleted`: drop `completed` files, recompute queue positions. -/
def clearCompleted (s : ManagerState) : ManagerState :=
  updateQueuePositions
    { s with files := s.files.filter (fun f => f.status != .completed) }

/-- Tail of a `processQueue` pass after its awaited `uploadFile` settles:
shift the queue head, clear the active slot, recompute queue positions. -/
def passContinue (s : ManagerState) : ManagerState :=
  updateQueuePositions
    { s with uploadQueue := s.uploadQueue.tail, activeFileId := none }

/-- Head of a `processQueue` pass whose `uploadFile` reaches the init fetch:
the head file is made active and `uploading`, and the pass suspends. -/
def startPassRunState (s : ManagerState) (fid : Nat) : ManagerState :=
  { s with activeFileId := some fid, inFlight := some fid,
           files := updateFileStatus s.files fid .uploading none }

/-- A `processQueue` pass whose `uploadFile` returns at once (file missing,
completed or already uploading): the pass runs to its tail synchronously. -/
def startPassSkipState (s : ManagerState) (fid : Nat) : ManagerState :=
  passContinue { s with activeFileId := some fid }

/-- Pass tail when `uploadFile` resolved with a completed upload. -/
def finishCompletedState (s : ManagerState) (fid : Nat) : ManagerState :=
  passContinue
    { s with files := updateFileStatus s.files fid .completed none, inFlight := none }

/-- Pass tail when `uploadFile` rejected (init, chunk phase or completion
failed): the file is marked `error`. -/
def finishErrorState (s : ManagerState) (fid : Nat) : ManagerState :=
  passContinue
    { s with files := updateFileStatus s.files fid .error none, inFlight := none }

/-- Pass tail when `uploadFile` was aborted: no status change. -/
def finishAbortedState (s : ManagerState) : ManagerState :=
  passContinue { s with inFlight := none }

/-- Scheduler admission of one chunk send (`uploadChunk` entry): the chunk
is marked `uploading`. -/
def chunkSendStartState (s : ManagerState) (fid idx : Nat) : ManagerState :=
  { s with files := updateChunkStatus s.files fid idx .uploading }

/-- Resolution of one chunk send: `updateChunkStatus(completed)` followed by
`updateFileProgress`. -/
def chunkSendOkState (s : ManagerState) (fid idx : Nat) : ManagerState :=
  { s with files := updateFileProgress (updateChunkStatus s.files fid idx .completed) fid }

/-- Rejection of one chunk send: the chunk is marked `error`. -/
def chunkSendFailState (s : ManagerState) (fid idx : Nat) : ManagerState :=
  { s with files := updateChunkStatus s.files fid idx .error }

/-- Retry bookkeeping of the scheduler: `updateChunkRetries`. -/
def chunkRetryState (s : ManagerState) (fid idx r : Nat) : ManagerState :=
  { s with files := updateChunkRetries s.files fid idx r }

/-- One observable transition of the manager: a public operation, or one
scheduler step of the cooperative event loop (each step is the code between
two suspension points).  Guards record the conditions under which the
source takes the step: `processQueue` only starts a pass when no pass is
running, not paused, the queue is non-empty and no file is active;
`uploadFile` skips files that are missing, completed or uploading; chunk
sends are admitted only for non-completed chunks of the in-flight file and
a send rejection concerns a chunk previously marked `uploading`; an aborted
pass implies the abort call already cleared the active slot. -/
inductive Step : ManagerState → ManagerState → Prop where
  | opAddFiles (s : ManagerState) (sizes : List Nat) : Step s (addFiles s sizes)
  | opRemoveFile (s : ManagerState) (fid : Nat) : Step s (removeFile s fid)
  | opStartUpload (s : ManagerState) : Step s (startUpload s)
  | opPauseAll (s : ManagerState) : Step s (pauseAll s)
  | opResumeAll (s : ManagerState) : Step s (resumeAll s)
  | opRetryFailed (s : ManagerState) : Step s (retryFailed s)
  | opCancelAll (s : ManagerState) : Step s (cancelAll s)
  | opClearCompleted (s : ManagerState) : Step s (clearCompleted s)
  | schedStartRun (s : ManagerState) (fid : Nat) (rest : List Nat) (f : ChunkedFile) :
      s.inFlight = none → s.paused = false → s.activeFileId = none →
      s.uploadQueue = fid :: rest →
      s.files.find? (fun g => g.id == fid) = some f →
      f.status ≠ .completed → f.status ≠ .uploading →
      Step s (startPassRunState s fid)
  | schedStartSkip (s : ManagerState) (fid : Nat) (rest : List Nat) :
      s.inFlight = none → s.paused = false → s.activeFileId = none →
      s.uploadQueue = fid :: rest →
      (s.files.find? (fun g => g.id == fid) = none ∨
        ∃ f, s.files.find? (fun g => g.id == fid) = some f ∧
          (f.status = .completed ∨ f.status = .uploading)) →
      Step s (startPassSkipState s fid)
  | schedFinishCompleted (s : ManagerState) (fid : Nat) :
      s.inFlight = some fid → Step s (finishCompletedState s fid)
  | schedFinishError (s : ManagerState) (fid : Nat) :
      s.inFlight = some fid → Step s (finishErrorState s fid)
  | schedFinishAborted (s : ManagerState) (fid : Nat) :
      s.inFlight = some fid → s.activeFileId = none →
      Step s (finishAbortedState s)
  | schedChunkStart (s : ManagerState) (fid idx : Nat) (f : ChunkedFile) (c : FileChunk) :
      s.inFlight = some fid →
      s.files.find? (fun g => g.id == fid) = some f →
      f.chunks[idx]? = some c → c.status ≠ .completed →
      Step s (chunkSendStartState s fid idx)
  | schedChunkOk (s : ManagerState) (fid idx : Nat) :
      Step s (chunkSendOkState s fid idx)
  | schedChunkFail (s : ManagerState) (fid idx : Nat) (f : ChunkedFile) (c : FileChunk) :
      s.files.find? (fun g => g.id == fid) = some f →
      f.chunks[idx]? = some c → c.status = .uploading →
      Step s (chunkSendFailState s fid idx)
  | schedChunkRetry (s : ManagerState) (fid idx r : Nat) :
      Step s (chunkRetryState s fid idx r)

/-- States reachable from a freshly constructed manager. -/
inductive Reachable (opts : ChunkUploadOptions) : ManagerState → Prop where
  | init : Reachable opts (initialState opts)
  | step {s s' : ManagerState} : Reachable opts s → Step s s' → Reachable opts s'

/-! ## The uploadChunks event loop (deterministic simulation)

`uploadChunks` polls every 100 ms: while work remains or chunks are in
flight it tops up the in-flight set to the concurrency limit, sleeps
100 ms, and on loop exit throws when any chunk's last result is a
rejection.  A rejected send re-enqueues its chunk through a timer delayed
by `retryDelay * (retries + 1)`.  The simulation below replays that loop on
the single-threaded event-loop semantics: at each step the earliest due
event (send resolution, retry timer, loop wake-up) runs.  `latency i a` is
the duration of attempt `a` of chunk `i`, `sendOk i a` its outcome. -/

/-- Scheduler parameters and the transport behaviour. -/
structure SimParams where
  maxConcurrentChunks : Nat
  maxRetries : Nat
  retryDelay : Nat
  latency : Nat → Nat → Nat
  sendOk : Nat → Nat → Bool

/-- A queued chunk work item (the objects held in `chunkQueue`). -/
structure SimChunk where
  index : Nat
  retries : Nat
deriving DecidableEq, Repr

/-- A chunk send that has been started and not yet resolved. -/
structure InFlightSend where
  index : Nat
  attempt : Nat
  doneAt : Nat
deriving DecidableEq, Repr

/-- A pending retry re-enqueue timer. -/
structure RetryTimer where
  fireAt : Nat
  chunk : SimChunk
deriving DecidableEq, Repr

/-- State of one `uploadChunks` call plus the chunk bookkeeping of its file.
`results` mirrors the `results` array (`none` = null, `some true` = success,
`some false` = error); `attempts` counts transport sends started per index;
`loopDone = some b` means the loop exited, with `b` false exactly when the
trailing failed-chunk check throws. -/
structure SimState where
  chunkQueue : List SimChunk
  inflight : List InFlightSend
  timers : List RetryTimer
  chunkStatuses : List ChunkStatus
  chunkRetries : List Nat
  results : List (Option Bool)
  attempts : List Nat
  wakeAt : Nat
  loopDone : Option Bool
deriving Repr

/-- The inner top-up loop: start sends while the queue is non-empty and the
in-flight set is below the concurrency limit.  Starting a send marks the
chunk `uploading` and schedules its resolution `latency` later. -/
def fillActive (P : SimParams) (t : Nat) : Nat → SimState → SimState
  | 0, s => s
  | fuel + 1, s =>
    match s.chunkQueue with
    | [] => s
    | c :: rest =>
      if s.inflight.length < P.maxConcurrentChunks then
        let a := s.attempts.getD c.index 0
        fillActive P t fuel
          { s with
            chunkQueue := rest,
            inflight := s.inflight ++ [⟨c.index, a, t + P.latency c.index a⟩],
            attempts := s.attempts.set c.index (a + 1),
            chunkStatuses := s.chunkStatuses.set c.index .uploading }
      else s

/-- One wake-up of the `while` loop at time `t`: exit when nothing is
queued or in flight (throwing when any result is a recorded rejection),
else top up the in-flight set and sleep 100 ms. -/
def loopWake (P : SimParams) (t : Nat) (s : SimState) : SimState :=
  if s.chunkQueue.isEmpty && s.inflight.isEmpty then
    let failed := s.results.countP (fun r => !(r == some true) && !(r == none))
    { s with loopDone := some (failed == 0) }
  else
    let s2 := fillActive P t s.chunkQueue.length s
    { s2 with wakeAt := t + 100 }

/-- Resolution of a send at time `t`: on success the chunk is marked
`completed`; on rejection it is marked `error` and, when retries remain,
its retry count is bumped and a re-enqueue timer is armed after
`retryDelay * (retries + 1)`. -/
def resolveSend (P : SimParams) (t : Nat) (e : InFlightSend) (s : SimState) : SimState :=
  if P.sendOk e.index e.attempt then
    { s with results := s.results.set e.index (some true),
             chunkStatuses := s.chunkStatuses.set e.index .completed }
  else
    let r := s.chunkRetries.getD e.index 0
    let s1 := { s with results := s.results.set e.index (some false),
                       chunkStatuses := s.chunkStatuses.set e.index .error }
    if r < P.maxRetries then
      { s1 with chunkRetries := s1.chunkRetries.set e.index (r + 1),
                timers := s1.timers ++ [⟨t + P.retryDelay * (r + 1), ⟨e.index, r + 1⟩⟩] }
    else s1

/-- The earliest due event time. -/
def nextEventTime (s : SimState) : Nat :=
  (s.inflight.map (fun e => e.doneAt) ++ s.timers.map (fun tm => tm.fireAt)).foldl
    min s.wakeAt

/-- One event-loop step: run the earliest due event (send resolutions
first, then retry timers, then the loop wake-up). -/
def simStep (P : SimParams) (s : SimState) : SimState :=
  if s.loopDone.isSome then s
  else
    let t := nextEventTime s
    match s.inflight.find? (fun e => e.doneAt == t) with
    | some e => resolveSend P t e { s with inflight := s.inflight.eraseP (fun e2 => e2.doneAt == t) }
    | none =>
      match s.timers.find? (fun tm => tm.fireAt == t) with
      | some tm =>
        { s with timers := s.timers.eraseP (fun tm2 => tm2.fireAt == t),
                 chunkQueue := s.chunkQueue ++ [tm.chunk] }
      | none => loopWake P t s

/-- Run the event loop for a bounded number of events. -/
def simRun (P : SimParams) : Nat → SimState → SimState
  | 0, s => s
  | fuel + 1, s => simRun P fuel (simStep P s)

/-- Initial scheduler state for a file of `n` pending chunks (the work
queue holds every not-yet-completed chunk, in index order). -/
def simInit (n : Nat) : SimState :=
  { chunkQueue := (List.range n).map (fun i => ⟨i, 0⟩),
    inflight := [], timers := [],
    chunkStatuses := List.replicate n .pending,
    chunkRetries := List.replicate n 0,
    results := List.replicate n none,
    attempts := List.replicate n 0,
    wakeAt := 0, loopDone := none }

/-- The transport of scenario B: attempts 0 and 1 of every chunk fail, the
third attempt succeeds. -/
def failTwiceTransport : SimParams :=
  { maxConcurrentChunks := 3, maxRetries := 3, retryDelay := 2000,
    latency := fun _ _ => 150,
    sendOk := fun _ a => decide (2 ≤ a) }

/-! ## Invariants and derived definitions used by the statements -/

/-- The bookkeeping invariant of one managed file: `uploadedChunks` counts
the completed chunks and `progress` is the rounded percentage. -/
def chunkInv (f : ChunkedFile) : Prop :=
  f.uploadedChunks = countCompleted f.chunks ∧
    f.progress = roundPct (countCompleted f.chunks) f.totalChunks

/-- The inductive invariant of the manager: file ids are distinct and below
the id counter, every `uploading` file is the active file, an in-flight
pass is for the active file (unless the active slot was cleared by an
abort), and every file satisfies the chunk bookkeeping invariant. -/
def ManagerInv (s : ManagerState) : Prop :=
  (s.files.map (fun f => f.id)).Nodup ∧
  (∀ f ∈ s.files, f.id < s.nextId) ∧
  (∀ f ∈ s.files, f.status = .uploading → s.activeFileId = some f.id) ∧
  (∀ fid, s.inFlight = some fid → s.activeFileId = some fid ∨ s.activeFileId = none) ∧
  (∀ f ∈ s.files, chunkInv f)

instance : IsTotal (Str × List Nat) chunkLE :=
  ⟨fun a b => Nat.le_total (parseChunkIndex a.1) (parseChunkIndex b.1)⟩

instance : IsTrans (Str × List Nat) chunkLE :=
  ⟨fun _ _ _ h1 h2 => Nat.le_trans h1 h2⟩

/-- Indices in first-occurrence order (the keys of the blob store built by a
send sequence appear in this order). -/
def firstOccur (idxs : List Nat) : List Nat :=
  idxs.foldl (fun acc i => if i ∈ acc then acc else acc ++ [i]) []

/-- Whether a blob's upload id belongs to a list of group ids. -/
def inIds (ids : List Str) (b : SweepBlob) : Bool :=
  match uploadIdOf b with
  | some id => ids.contains id
  | none => false

/-! ## Helper lemmas -/

theorem idxOf?_eq_none_of_not_mem {a : Nat} :
    ∀ {l : List Nat}, a ∉ l → idxOf? a l = none := by
  intro l
  induction l with
  | nil => intro _; rfl
  | cons b t ih =>
    intro h
    simp only [List.mem_cons, not_or] at h
    have hba : ¬(b = a) := fun hb => h.1 hb.symm
    simp only [idxOf?, if_neg hba, ih h.2, Option.map_none']

theorem map_fixes_of_eq_self {f : Char → Char} :
    ∀ {l : List Char}, l.map f = l → ∀ c ∈ l, f c = c := by
  intro l
  induction l with
  | nil => intro _ c hc; cases hc
  | cons a t ih =>
    intro heq c hc
    simp only [List.map_cons, List.cons.injEq] at heq
    rcases List.mem_cons.mp hc with h1 | h1
    · rw [h1]; exact heq.1
    · exact ih heq.2 c h1

theorem idxOf?_get {a : Nat} :
    ∀ {l : List Nat} {i : Nat}, idxOf? a l = some i → l[i]? = some a := by
  intro l
  induction l with
  | nil => intro i h; simp [idxOf?] at h
  | cons b t ih =>
    intro i h
    by_cases hb : b = a
    · simp only [idxOf?, if_pos hb] at h
      cases h
      simp [hb]
    · simp only [idxOf?, if_neg hb] at h
      rcases Option.map_eq_some'.mp h with ⟨j, hj, hij⟩
      subst hij
      simpa using ih hj

theorem idxOf?_isSome_of_mem {a : Nat} :
    ∀ {l : List Nat}, a ∈ l → ∃ i, idxOf? a l = some i := by
  intro l
  induction l with
  | nil => intro h; cases h
  | cons b t ih =>
    intro h
    by_cases hb : b = a
    · exact ⟨0, by simp [idxOf?, hb]⟩
    · rcases ih (by rcases List.mem_cons.mp h with h1 | h1; exact absurd h1.symm hb; exact h1) with ⟨j, hj⟩
      exact ⟨j + 1, by simp [idxOf?, hb, hj]⟩

theorem keepChar_underscore : keepChar '_' = true := by decide

/-- A filename containing a character outside the kept class is changed by
sanitization. -/
theorem sanitize_ne_of_bad {name : List Char}
    (h : ∃ c ∈ name, keepChar c = false) : sanitizeFilename name ≠ name := by
  rcases h with ⟨c, hc, hbad⟩
  intro heq
  have hfix : (if keepChar c then c else '_') = c :=
    map_fixes_of_eq_self heq c hc
  rw [if_neg (by simp [hbad])] at hfix
  rw [← hfix] at hbad
  rw [keepChar_underscore] at hbad
  cases hbad

/-- Any file carrying the finished id in the post-error state is `error`;
`updateQueuePositions` leaves errored files alone. -/
theorem finishError_status (s : ManagerState) (fid : Nat) :
    ∀ f ∈ (finishErrorState s fid).files, f.id = fid → f.status = .error := by
  intro f hf hid
  unfold finishErrorState passContinue updateQueuePositions at hf
  simp only [List.mem_map] at hf
  rcases hf with ⟨f0, hf0, hgf⟩
  have key : ∀ f1, f1 ∈ updateFileStatus s.files fid .error none → f1.id = fid →
      f1.status = .error := by
    intro f1 h1 hid1
    unfold updateFileStatus updFiles at h1
    simp only [List.mem_map] at h1
    rcases h1 with ⟨f2, _, hf2⟩
    by_cases h2 : f2.id = fid
    · rw [if_pos h2] at hf2; rw [← hf2]
    · rw [if_neg h2] at hf2; rw [← hf2] at hid1; exact absurd hid1 h2
  have hf0id : f0.id = fid := by
    by_cases hcase : idxOf? f0.id ((updateFileStatus s.files fid .error none).filter
        (eligibleForQueue none) |>.map (fun f => f.id)) = none
    · rw [hcase] at hgf; rw [← hgf] at hid; exact hid
    · rcases Option.ne_none_iff_exists'.mp hcase with ⟨i, hi⟩
      rw [hi] at hgf; rw [← hgf] at hid; exact hid
  have hst0 : f0.status = .error := key f0 hf0 hf0id
  have hnotmem : f0.id ∉ ((updateFileStatus s.files fid .error none).filter
      (eligibleForQueue none) |>.map (fun f => f.id)) := by
    intro hmem
    simp only [List.mem_map, List.mem_filter] at hmem
    rcases hmem with ⟨f2, ⟨hf2mem, hf2el⟩, hf2id⟩
    have : f2.status = .error := key f2 hf2mem (by rw [hf2id, hf0id])
    simp [eligibleForQueue, this] at hf2el
  rw [idxOf?_eq_none_of_not_mem hnotmem] at hgf
  rw [← hgf]; exact hst0

/-- C10: on successful completion the forwarded and returned filename is the
requested one with every character outside word/whitespace/dot/hyphen
replaced by an underscore, and a filename containing such a character is
always changed. -/
theorem c10_sanitized_filename (store : BlobStore) (req : CompleteRequest)
    (h1 : req.uploadId ≠ []) (h2 : req.filename ≠ []) (h3 : req.contentType ≠ "")
    (h4 : req.totalChunks ≠ 0)
    (h5 : (listChunks store req.uploadId).length = req.totalChunks) :
    (∃ bytes n, completeUpload store req =
      .ok bytes (sanitizeFilename req.filename) req.contentType n) ∧
    ((∃ c ∈ req.filename, keepChar c = false) →
      sanitizeFilename req.filename ≠ req.filename) := by
  constructor
  · have hvalid : ¬(req.uploadId = [] ∨ req.filename = [] ∨ req.contentType = "" ∨
        req.totalChunks = 0) := by simp [h1, h2, h3, h4]
    simp only [completeUpload, if_neg hvalid, h5, ne_eq, not_true_eq_false,
      if_false, reduceIte]
    exact ⟨_, _, rfl⟩
  · exact sanitize_ne_of_bad

theorem c10_witness :
    (∃ bytes n, completeUpload [(chunkKey "u".data 0, [7])] ⟨"u".data, ['a', '/'], "image/png", 1⟩ =
      .ok bytes (sanitizeFilename ['a', '/']) "image/png" n) ∧
    ((∃ c ∈ ['a', '/'], keepChar c = false) → sanitizeFilename ['a', '/'] ≠ ['a', '/']) :=
  c10_sanitized_filename [(chunkKey "u".data 0, [7])] ⟨"u".data, ['a', '/'], "image/png", 1⟩
    (by decide) (by decide) (by decide) (by decide) (by decide)

/-- C5: when the stored chunk count differs from the requested total the
completion fails with a count-mismatch carrying received and expected
counts and creates no media item; it creates one exactly when the counts
agree; and the scheduler step that settles a failed completion leaves the
file with status error. -/
theorem c5_count_mismatch (store : BlobStore) (req : CompleteRequest)
    (h1 : req.uploadId ≠ []) (h2 : req.filename ≠ []) (h3 : req.contentType ≠ "")
    (h4 : req.totalChunks ≠ 0) :
    ((listChunks store req.uploadId).length ≠ req.totalChunks →
      completeUpload store req =
        .countMismatch (listChunks store req.uploadId).length req.totalChunks ∧
      mediaCreated (completeUpload store req) = false) ∧
    ((listChunks store req.uploadId).length = req.totalChunks →
      mediaCreated (completeUpload store req) = true) ∧
    (∀ (s : ManagerState) (fid : Nat), s.inFlight = some fid →
      ∀ f ∈ (finishErrorState s fid).files, f.id = fid → f.status = .error) := by
  have hvalid : ¬(req.uploadId = [] ∨ req.filename = [] ∨ req.contentType = "" ∨
      req.totalChunks = 0) := by simp [h1, h2, h3, h4]
  refine ⟨?_, ?_, ?_⟩
  · intro hne
    have : completeUpload store req =
        .countMismatch (listChunks store req.uploadId).length req.totalChunks := by
      simp only [completeUpload, if_neg hvalid, ne_eq, hne, not_false_eq_true, if_true,
        reduceIte]
    exact ⟨this, by rw [this]; rfl⟩
  · intro heq
    simp only [completeUpload, if_neg hvalid, heq, ne_eq, not_true_eq_false, if_false,
      reduceIte]
    rfl
  · intro s fid _
    exact finishError_status s fid

theorem c5_witness :
    (((listChunks [(chunkKey "u".data 0, [7]), (chunkKey "u".data 1, [8])] "u".data).length ≠ 3 →
      completeUpload [(chunkKey "u".data 0, [7]), (chunkKey "u".data 1, [8])]
          ⟨"u".data, ['a'], "image/png", 3⟩ =
        .countMismatch
          (listChunks [(chunkKey "u".data 0, [7]), (chunkKey "u".data 1, [8])] "u".data).length 3 ∧
      mediaCreated (completeUpload [(chunkKey "u".data 0, [7]), (chunkKey "u".data 1, [8])]
        ⟨"u".data, ['a'], "image/png", 3⟩) = false) ∧
    ((listChunks [(chunkKey "u".data 0, [7]), (chunkKey "u".data 1, [8])] "u".data).length = 3 →
      mediaCreated (completeUpload [(chunkKey "u".data 0, [7]), (chunkKey "u".data 1, [8])]
        ⟨"u".data, ['a'], "image/png", 3⟩) = true) ∧
    (∀ (s : ManagerState) (fid : Nat), s.inFlight = some fid →
      ∀ f ∈ (finishErrorState s fid).files, f.id = fid → f.status = .error)) :=
  c5_count_mismatch [(chunkKey "u".data 0, [7]), (chunkKey "u".data 1, [8])]
    ⟨"u".data, ['a'], "image/png", 3⟩ (by decide) (by decide) (by decide) (by decide)

theorem totalChunksOf_zero (cs : Nat) : totalChunksOf 0 cs = 0 := by
  unfold totalChunksOf
  cases cs with
  | zero => rfl
  | succ c =>
    simp only [Nat.zero_add, Nat.succ_sub_one]
    exact Nat.div_eq_of_lt (Nat.lt_succ_self c)

theorem mkChunks_length (n : Nat) : (mkChunks n).length = n := by
  simp [mkChunks]

/-- C8 (amended): splitting computes `ceil(size / chunkSize)` chunks with no
minimum of one, so a zero-byte file yields zero chunks and an empty chunk
list. -/
theorem c8_zero_byte_file (s : ManagerState) (size : Nat) :
    ∃ f, (addFiles s [size]).files.getLast? = some f ∧
      f.totalChunks = totalChunksOf size s.opts.chunkSize ∧
      f.chunks.length = f.totalChunks ∧
      (size = 0 → f.totalChunks = 0 ∧ f.chunks = []) := by
  have hnew : [size].enum.map
      (fun p => mkChunkedFile (s.nextId + p.1) p.2 s.opts.chunkSize s.activeFileId) =
      [mkChunkedFile (s.nextId + 0) size s.opts.chunkSize s.activeFileId] := rfl
  simp only [addFiles, updateQueuePositions, hnew]
  rw [List.map_append]
  simp only [List.map_cons, List.map_nil]
  rw [List.getLast?_concat]
  set newf := mkChunkedFile (s.nextId + 0) size s.opts.chunkSize s.activeFileId with hnewf
  cases hidx : idxOf? newf.id
      (((s.files ++ [newf]).filter (eligibleForQueue s.activeFileId)).map (fun f => f.id)) with
  | none =>
    refine ⟨newf, rfl, rfl, by simp [hnewf, mkChunkedFile, mkChunks_length], ?_⟩
    intro hz
    subst hz
    constructor
    · show totalChunksOf 0 s.opts.chunkSize = 0
      exact totalChunksOf_zero _
    · show mkChunks (totalChunksOf 0 s.opts.chunkSize) = []
      rw [totalChunksOf_zero]
      rfl
  | some i =>
    refine ⟨{ newf with status := .queued, queuePosition := some i }, rfl, rfl,
      by simp [hnewf, mkChunkedFile, mkChunks_length], ?_⟩
    intro hz
    subst hz
    constructor
    · show totalChunksOf 0 s.opts.chunkSize = 0
      exact totalChunksOf_zero _
    · show mkChunks (totalChunksOf 0 s.opts.chunkSize) = []
      rw [totalChunksOf_zero]
      rfl

theorem c8_witness :
    ∃ f, (addFiles (initialState defaultOptions) [0]).files.getLast? = some f ∧
      f.totalChunks = totalChunksOf 0 (initialState defaultOptions).opts.chunkSize ∧
      f.chunks.length = f.totalChunks ∧
      (0 = 0 → f.totalChunks = 0 ∧ f.chunks = []) :=
  c8_zero_byte_file (initialState defaultOptions) 0

/-- C8 as stated is false: the computed chunk count of a zero-byte file is
0, not `max(ceil(0 / chunkSize), 1) = 1`. -/
theorem c8_counterexample :
    ((addFiles (initialState defaultOptions) [0]).files.map (fun f => f.totalChunks)) = [0] ∧
    max (totalChunksOf 0 defaultOptions.chunkSize) 1 = 1 ∧ (0 : Nat) ≠ 1 := by
  decide

theorem newFiles_map_id (s : ManagerState) (sizes : List Nat) :
    ((sizes.enum.map
        (fun p => mkChunkedFile (s.nextId + p.1) p.2 s.opts.chunkSize s.activeFileId)).map
      (fun f => f.id)) = (List.range sizes.length).map (fun k => s.nextId + k) := by
  rw [List.map_map, ← List.enum_map_fst sizes, List.map_map]
  rfl

theorem newFiles_status (s : ManagerState) (sizes : List Nat)
    (hactive : s.activeFileId = none) :
    ∀ g ∈ sizes.enum.map
        (fun p => mkChunkedFile (s.nextId + p.1) p.2 s.opts.chunkSize s.activeFileId),
      g.status = .pending := by
  intro g hg
  rcases List.mem_map.mp hg with ⟨p, _, rfl⟩
  simp [mkChunkedFile, hactive]

/-- C7 (amended): with no active file, `addFiles` leaves every added file in
status `queued` (not `pending`): `updateQueuePositions` immediately marks
all eligible files queued.  Queue positions are 0-based in stable insertion
order, and when the manager is not paused the queue-processing trigger
condition holds. -/
theorem c7_addFiles_all_queued (s : ManagerState) (sizes : List Nat)
    (hactive : s.activeFileId = none)
    (hlt : ∀ f ∈ s.files, f.id < s.nextId) :
    (addFiles s sizes).uploadQueue =
      ((s.files.filter (eligibleForQueue none)).map (fun f => f.id)) ++
        (List.range sizes.length).map (fun k => s.nextId + k) ∧
    (∀ f ∈ (addFiles s sizes).files, s.nextId ≤ f.id →
      f.status = .queued ∧
      ∃ i, f.queuePosition = some i ∧ (addFiles s sizes).uploadQueue[i]? = some f.id) ∧
    (s.paused = false → sizes ≠ [] → processKick (addFiles s sizes) = true) := by
  have hstat := newFiles_status s sizes hactive
  have helig : ∀ g ∈ sizes.enum.map
      (fun p => mkChunkedFile (s.nextId + p.1) p.2 s.opts.chunkSize s.activeFileId),
      eligibleForQueue s.activeFileId g = true := by
    intro g hg
    have := hstat g hg
    rw [hactive]
    simp [eligibleForQueue, this]
  have hq0 : (addFiles s sizes).uploadQueue =
      ((s.files ++ sizes.enum.map
        (fun p => mkChunkedFile (s.nextId + p.1) p.2 s.opts.chunkSize s.activeFileId)).filter
        (eligibleForQueue s.activeFileId)).map (fun f => f.id) := rfl
  have hids : ((s.files ++ sizes.enum.map
        (fun p => mkChunkedFile (s.nextId + p.1) p.2 s.opts.chunkSize s.activeFileId)).filter
        (eligibleForQueue s.activeFileId)).map (fun f => f.id) =
      (s.files.filter (eligibleForQueue none)).map (fun f => f.id) ++
        (List.range sizes.length).map (fun k => s.nextId + k) := by
    rw [List.filter_append, List.filter_eq_self.mpr helig, List.map_append,
      newFiles_map_id, hactive]
  have hqueue := hq0.trans hids
  refine ⟨hqueue, ?_, ?_⟩
  · intro f hf hge
    simp only [addFiles, updateQueuePositions, List.mem_map] at hf
    rcases hf with ⟨f0, hf0mem, hgf⟩
    split at hgf
    next i hi =>
      refine ⟨by rw [← hgf], i, by rw [← hgf], ?_⟩
      have hfid : f.id = f0.id := by rw [← hgf]
      rw [hq0, hfid]
      exact idxOf?_get hi
    next hnone =>
      subst hgf
      rcases List.mem_append.mp hf0mem with hold | hnewm
      · exact absurd (hlt f0 hold) (by omega)
      · have hmem : f0.id ∈ ((s.files ++ sizes.enum.map
            (fun p => mkChunkedFile (s.nextId + p.1) p.2 s.opts.chunkSize s.activeFileId)).filter
            (eligibleForQueue s.activeFileId)).map (fun f => f.id) :=
          List.mem_map.mpr ⟨f0, List.mem_filter.mpr
            ⟨List.mem_append.mpr (Or.inr hnewm), helig f0 hnewm⟩, rfl⟩
        rcases idxOf?_isSome_of_mem hmem with ⟨j, hj⟩
        rw [hj] at hnone
        cases hnone
  · intro hpaused hsz
    have hne : (addFiles s sizes).uploadQueue ≠ [] := by
      rw [hqueue]
      intro hempty
      rcases List.append_eq_nil.mp hempty with ⟨_, h2⟩
      have h3 := List.map_eq_nil_iff.mp h2
      have h4 : sizes.length = 0 := by
        have := congrArg List.length h3
        simpa using this
      exact hsz (List.length_eq_zero.mp h4)
    have hact2 : (addFiles s sizes).activeFileId = none := hactive
    have hpaused2 : (addFiles s sizes).paused = false := hpaused
    simp [processKick, hact2, hpaused2, hne]

theorem c7_witness :
    (addFiles (initialState defaultOptions) [5242880, 1048576]).uploadQueue =
      (((initialState defaultOptions).files.filter (eligibleForQueue none)).map (fun f => f.id)) ++
        (List.range ([5242880, 1048576] : List Nat).length).map
          (fun k => (initialState defaultOptions).nextId + k) ∧
    (∀ f ∈ (addFiles (initialState defaultOptions) [5242880, 1048576]).files,
      (initialState defaultOptions).nextId ≤ f.id →
      f.status = .queued ∧
      ∃ i, f.queuePosition = some i ∧
        (addFiles (initialState defaultOptions) [5242880, 1048576]).uploadQueue[i]? = some f.id) ∧
    ((initialState defaultOptions).paused = false → ([5242880, 1048576] : List Nat) ≠ [] →
      processKick (addFiles (initialState defaultOptions) [5242880, 1048576]) = true) :=
  c7_addFiles_all_queued (initialState defaultOptions) [5242880, 1048576] rfl
    (by intro f hf; cases hf)

/-- C7 as stated is false: adding two files to an idle manager leaves the
first file `queued`, not `pending` — `updateQueuePositions` re-marks every
non-active eligible file as queued before `addFiles` returns. -/
theorem c7_counterexample :
    ((addFiles (initialState defaultOptions) [5242880, 1048576]).files.map
      (fun f => f.status)) = [.queued, .queued] ∧
    FileStatus.queued ≠ FileStatus.pending := by
  decide

/-- C3 fails on the code: for a single-chunk file whose first send fails
(transport failing attempts 0 and 1, succeeding on attempt 2, with the
default maxRetries 3 and retryDelay 2000), the `uploadChunks` loop exits
and throws after a single send attempt.  The failure handler re-enqueues
the chunk only through a timer delayed 2000 ms, while the loop polls every
100 ms and terminates as soon as nothing is queued or in flight, so the
armed retry (due at t = 2150) never runs: the chunk ends `error` with
exactly one attempt instead of `completed` after three. -/
theorem c3_retry_lost :
    (simRun failTwiceTransport 10 (simInit 1)).loopDone = some false ∧
    (simRun failTwiceTransport 10 (simInit 1)).attempts = [1] ∧
    (simRun failTwiceTransport 10 (simInit 1)).chunkStatuses = [.error] ∧
    (simRun failTwiceTransport 10 (simInit 1)).timers = [⟨2150, ⟨0, 1⟩⟩] := by
  decide

/-! ## Reassembly: splitting and index-ordered concatenation -/

theorem chunkSliceOf_eq_take (file : List Nat) (cs i : Nat) :
    chunkSliceOf file cs i = (file.drop (i * cs)).take cs := by
  unfold chunkSliceOf
  simp only []
  rw [List.take_eq_take]
  rw [List.length_drop]
  omega

theorem flatten_take_chunks (cs : Nat) (hcs : 0 < cs) :
    ∀ (bound : Nat) (file : List Nat), file.length ≤ bound →
      ((List.range (totalChunksOf file.length cs)).map
        (fun i => (file.drop (i * cs)).take cs)).flatten = file := by
  intro bound
  induction bound with
  | zero =>
    intro file hlen
    have hnil : file = [] := List.eq_nil_of_length_eq_zero (Nat.le_zero.mp hlen)
    subst hnil
    simp [totalChunksOf_zero]
  | succ b ih =>
    intro file hlen
    rcases file with _ | ⟨a, t⟩
    · simp [totalChunksOf_zero]
    · have hlen1 : 0 < (a :: t).length := by simp
      by_cases hle : (a :: t).length ≤ cs
      · have hn : totalChunksOf (a :: t).length cs = 1 := by
          unfold totalChunksOf
          apply Nat.div_eq_of_lt_le <;> omega
        rw [hn]
        have hr1 : List.range 1 = [0] := rfl
        rw [hr1]
        simp only [List.map_cons, List.map_nil, List.flatten_cons, List.flatten_nil,
          Nat.zero_mul, List.drop_zero, List.append_nil]
        exact List.take_of_length_le hle
      · push_neg at hle
        have hsplit : totalChunksOf (a :: t).length cs =
            totalChunksOf ((a :: t).length - cs) cs + 1 := by
          unfold totalChunksOf
          have h1 : (a :: t).length + cs - 1 = ((a :: t).length - cs + cs - 1) + cs := by
            omega
          rw [h1, Nat.add_div_right _ hcs]
        rw [hsplit, List.range_succ_eq_map]
        simp only [List.map_cons, List.flatten_cons, List.map_map]
        have hdroplen : ((a :: t).drop cs).length = (a :: t).length - cs := by
          rw [List.length_drop]
        have hrw : ∀ i ∈ List.range (totalChunksOf ((a :: t).length - cs) cs),
            ((fun i => ((a :: t).drop (i * cs)).take cs) ∘ Nat.succ) i =
              (fun i => (((a :: t).drop cs).drop (i * cs)).take cs) i := by
          intro i _
          simp only [Function.comp_apply]
          rw [List.drop_drop]
          congr 2
          simp [Nat.succ_mul, Nat.mul_comm, Nat.add_comm]
        rw [List.map_congr_left hrw]
        have hih := ih ((a :: t).drop cs) (by rw [hdroplen]; omega)
        rw [hdroplen] at hih
        rw [hih]
        simp only [Nat.zero_mul, List.drop_zero]
        exact List.take_append_drop cs (a :: t)

theorem flatten_chunkSlice (file : List Nat) (cs : Nat) (hcs : 0 < cs) :
    ((List.range (totalChunksOf file.length cs)).map
      (fun i => chunkSliceOf file cs i)).flatten = file := by
  rw [List.map_congr_left (fun i _ => chunkSliceOf_eq_take file cs i)]
  exact flatten_take_chunks cs hcs file.length file le_rfl

theorem nodup_key_pairwise {l : List (Str × List Nat)}
    (h : (l.map (fun b => parseChunkIndex b.1)).Nodup) :
    l.Pairwise (fun a b => parseChunkIndex a.1 ≠ parseChunkIndex b.1) := by
  induction l with
  | nil => exact List.Pairwise.nil
  | cons a t ih =>
    simp only [List.map_cons, List.nodup_cons] at h
    refine List.Pairwise.cons ?_ (ih h.2)
    intro b hb heq
    exact h.1 (by rw [heq]; exact List.mem_map.mpr ⟨b, hb, rfl⟩)

theorem pairwise_key_nodup {l : List (Str × List Nat)}
    (h : l.Pairwise (fun a b => parseChunkIndex a.1 ≠ parseChunkIndex b.1)) :
    (l.map (fun b => parseChunkIndex b.1)).Nodup := by
  induction l with
  | nil => simp
  | cons a t ih =>
    rcases List.pairwise_cons.mp h with ⟨ha, ht⟩
    simp only [List.map_cons, List.nodup_cons]
    refine ⟨fun hmem => ?_, ih ht⟩
    rcases List.mem_map.mp hmem with ⟨b, hb, hkey⟩
    exact ha b hb hkey.symm

theorem eq_of_sorted_perm_strict {l₁ l₂ : List (Str × List Nat)}
    (hp : l₁.Perm l₂)
    (hs : l₁.Sorted chunkLE)
    (hstrict : l₂.Pairwise (fun a b => parseChunkIndex a.1 < parseChunkIndex b.1)) :
    l₁ = l₂ := by
  haveI : IsAntisymm (Str × List Nat) (fun a b => parseChunkIndex a.1 < parseChunkIndex b.1) :=
    ⟨fun a b h1 h2 => absurd h2 (Nat.lt_asymm h1)⟩
  have hnodup2 : (l₂.map (fun b => parseChunkIndex b.1)).Nodup :=
    pairwise_key_nodup (hstrict.imp (fun h => Nat.ne_of_lt h))
  have hpm : (l₁.map (fun b => parseChunkIndex b.1)).Perm
      (l₂.map (fun b => parseChunkIndex b.1)) := List.Perm.map _ hp
  have hnodup1 : (l₁.map (fun b => parseChunkIndex b.1)).Nodup :=
    (List.Perm.nodup_iff hpm).mpr hnodup2
  have hpne := nodup_key_pairwise hnodup1
  have hs2 : l₁.Pairwise chunkLE := hs
  have hand := List.Pairwise.and hs2 hpne
  have hlt : l₁.Pairwise (fun a b => parseChunkIndex a.1 < parseChunkIndex b.1) :=
    hand.imp (fun h => Nat.lt_of_le_of_ne h.1 h.2)
  exact List.eq_of_perm_of_sorted hp hlt hstrict

theorem canon_pairwise_strict (uploadId : Str) (file : List Nat) (cs n : Nat)
    (hparse : ∀ i < n, parseChunkIndex (chunkKey uploadId i) = i) :
    (canonChunks uploadId file cs n).Pairwise
      (fun a b => parseChunkIndex a.1 < parseChunkIndex b.1) := by
  unfold canonChunks
  rw [List.pairwise_map]
  refine List.Pairwise.imp_of_mem ?_ (List.pairwise_lt_range n)
  intro i j hi hj hij
  simp only []
  rw [hparse i (List.mem_range.mp hi), hparse j (List.mem_range.mp hj)]
  exact hij

theorem canonChunks_length (uploadId : Str) (file : List Nat) (cs n : Nat) :
    (canonChunks uploadId file cs n).length = n := by
  simp [canonChunks]

/-- Core of the reassembly argument: when the listed chunks are any
permutation of the full canonical chunk set, completion sorts them back
into ascending index order and reassembles the original bytes. -/
theorem completeUpload_of_perm_canon (uploadId : Str) (fname : List Char) (cT : String)
    (file : List Nat) (cs : Nat) (store : BlobStore)
    (hcs : 0 < cs) (hu : uploadId ≠ []) (hf : fname ≠ []) (hct : cT ≠ "")
    (hn : totalChunksOf file.length cs ≠ 0)
    (hperm : (listChunks store uploadId).Perm
      (canonChunks uploadId file cs (totalChunksOf file.length cs)))
    (hparse : ∀ i < totalChunksOf file.length cs,
      parseChunkIndex (chunkKey uploadId i) = i) :
    completeUpload store ⟨uploadId, fname, cT, totalChunksOf file.length cs⟩ =
      .ok file (sanitizeFilename fname) cT (totalChunksOf file.length cs) := by
  have hvalid : ¬(uploadId = [] ∨ fname = [] ∨ cT = "" ∨
      totalChunksOf file.length cs = 0) := by simp [hu, hf, hct, hn]
  have hlen : (listChunks store uploadId).length = totalChunksOf file.length cs := by
    rw [hperm.length_eq, canonChunks_length]
  have hsorted_perm : (List.insertionSort chunkLE (listChunks store uploadId)).Perm
      (canonChunks uploadId file cs (totalChunksOf file.length cs)) :=
    (List.perm_insertionSort chunkLE _).trans hperm
  have hsorted : (List.insertionSort chunkLE (listChunks store uploadId)).Sorted chunkLE :=
    List.sorted_insertionSort chunkLE _
  have heq : List.insertionSort chunkLE (listChunks store uploadId) =
      canonChunks uploadId file cs (totalChunksOf file.length cs) :=
    eq_of_sorted_perm_strict hsorted_perm hsorted
      (canon_pairwise_strict _ _ _ _ hparse)
  have hflat : ((canonChunks uploadId file cs (totalChunksOf file.length cs)).map
      (fun b => b.2)).flatten = file := by
    unfold canonChunks
    rw [List.map_map]
    exact flatten_chunkSlice file cs hcs
  unfold completeUpload
  dsimp only
  rw [if_neg hvalid]
  rw [hlen]
  rw [if_neg (fun h => h rfl)]
  rw [heq, hflat, canonChunks_length]

/-- C1: when all chunks of a file are stored under its upload id — in any
completion order, hence any permutation of the canonical chunk set — the
completion operation concatenates strictly by the numeric chunk index
parsed from each storage key and reproduces the original byte sequence. -/
theorem c1_reassembly_order (uploadId : Str) (fname : List Char) (cT : String)
    (file : List Nat) (cs : Nat) (store : BlobStore)
    (hcs : 0 < cs) (hu : uploadId ≠ []) (hf : fname ≠ []) (hct : cT ≠ "")
    (hn : totalChunksOf file.length cs ≠ 0)
    (hperm : (listChunks store uploadId).Perm
      (canonChunks uploadId file cs (totalChunksOf file.length cs)))
    (hparse : ∀ i < totalChunksOf file.length cs,
      parseChunkIndex (chunkKey uploadId i) = i) :
    completeUpload store ⟨uploadId, fname, cT, totalChunksOf file.length cs⟩ =
      .ok file (sanitizeFilename fname) cT (totalChunksOf file.length cs) :=
  completeUpload_of_perm_canon uploadId fname cT file cs store hcs hu hf hct hn hperm hparse

theorem c1_witness :
    completeUpload [(chunkKey "u1".data 1, [3]), (chunkKey "u1".data 0, [1, 2])]
        ⟨"u1".data, ['a'], "image/png", totalChunksOf ([1, 2, 3] : List Nat).length 2⟩ =
      .ok [1, 2, 3] (sanitizeFilename ['a']) "image/png"
        (totalChunksOf ([1, 2, 3] : List Nat).length 2) :=
  c1_reassembly_order "u1".data ['a'] "image/png" [1, 2, 3] 2
    [(chunkKey "u1".data 1, [3]), (chunkKey "u1".data 0, [1, 2])]
    (by decide) (by decide) (by decide) (by decide) (by decide) (by decide) (by decide)

/-! ## Idempotent chunk sends -/

theorem strStartsWith_append (p s : Str) : strStartsWith (p ++ s) p = true := by
  induction p with
  | nil => cases s <;> rfl
  | cons a p' ih => simp [strStartsWith, ih]

theorem chunkKey_startsWith (uploadId : Str) (i : Nat) :
    strStartsWith (chunkKey uploadId i)
      ("uploads/".data ++ uploadId ++ "/chunk-".data) = true := by
  have hshape : chunkKey uploadId i =
      ("uploads/".data ++ uploadId ++ "/chunk-".data) ++ (natToChars i ++ ".bin".data) := by
    unfold chunkKey
    simp [List.append_assoc]
  rw [hshape]
  exact strStartsWith_append _ _

theorem nodup_countP_le_one {S : List Nat} (h : S.Nodup) (i : Nat) :
    S.countP (fun j => j == i) ≤ 1 := by
  induction S with
  | nil => simp [List.countP_nil]
  | cons a t ih =>
    rcases List.nodup_cons.mp h with ⟨ha, ht⟩
    rw [List.countP_cons]
    by_cases hai : a = i
    · subst hai
      have hzero : t.countP (fun j => j == a) = 0 := by
        rw [List.countP_eq_zero]
        intro j hj hbeq
        have hja : j = a := beq_iff_eq.mp hbeq
        exact ha (hja ▸ hj)
      simp [hzero]
    · have : (a == i) = false := by simp [hai]
      simp only [this, if_false]
      simpa using ih ht

theorem mem_firstOccur_go (a : Nat) :
    ∀ (idxs acc : List Nat),
      (a ∈ idxs.foldl (fun acc i => if i ∈ acc then acc else acc ++ [i]) acc ↔
        a ∈ acc ∨ a ∈ idxs) := by
  intro idxs
  induction idxs with
  | nil => intro acc; simp
  | cons i rest ih =>
    intro acc
    simp only [List.foldl_cons]
    rw [ih]
    by_cases hi : i ∈ acc
    · simp only [if_pos hi]
      constructor
      · rintro (h | h)
        · exact Or.inl h
        · exact Or.inr (List.mem_cons.mpr (Or.inr h))
      · rintro (h | h)
        · exact Or.inl h
        · rcases List.mem_cons.mp h with h1 | h1
          · exact Or.inl (h1 ▸ hi)
          · exact Or.inr h1
    · simp only [if_neg hi]
      constructor
      · rintro (h | h)
        · rcases List.mem_append.mp h with h1 | h1
          · exact Or.inl h1
          · exact Or.inr (List.mem_cons.mpr (Or.inl (List.mem_singleton.mp h1)))
        · exact Or.inr (List.mem_cons.mpr (Or.inr h))
      · rintro (h | h)
        · exact Or.inl (List.mem_append.mpr (Or.inl h))
        · rcases List.mem_cons.mp h with h1 | h1
          · exact Or.inl (List.mem_append.mpr (Or.inr (by simp [h1])))
          · exact Or.inr h1

theorem nodup_firstOccur_go :
    ∀ (idxs acc : List Nat), acc.Nodup →
      (idxs.foldl (fun acc i => if i ∈ acc then acc else acc ++ [i]) acc).Nodup := by
  intro idxs
  induction idxs with
  | nil => intro acc h; exact h
  | cons i rest ih =>
    intro acc h
    simp only [List.foldl_cons]
    by_cases hi : i ∈ acc
    · rw [if_pos hi]; exact ih acc h
    · rw [if_neg hi]
      refine ih (acc ++ [i]) ?_
      rw [List.nodup_append]
      exact ⟨h, List.nodup_singleton i, by
        intro a ha hb
        rw [List.mem_singleton] at hb
        subst hb
        exact hi ha⟩

theorem firstOccur_nodup (idxs : List Nat) : (firstOccur idxs).Nodup :=
  nodup_firstOccur_go idxs [] List.nodup_nil

theorem mem_firstOccur {a : Nat} {idxs : List Nat} :
    a ∈ firstOccur idxs ↔ a ∈ idxs := by
  unfold firstOccur
  rw [mem_firstOccur_go]
  simp

theorem sendSeq_go (file : List Nat) (cs : Nat) (uploadId : Str) (n : Nat)
    (hu : uploadId ≠ [])
    (hinj : ∀ i j, i < n → j < n → chunkKey uploadId i = chunkKey uploadId j → i = j) :
    ∀ (idxs acc : List Nat), (∀ i ∈ idxs, i < n) → (∀ i ∈ acc, i < n) →
      idxs.foldl
        (fun st i => chunkEndpointPost st uploadId i (chunkSliceOf file cs i))
        (acc.map (fun i => (chunkKey uploadId i, chunkSliceOf file cs i))) =
      (idxs.foldl (fun acc i => if i ∈ acc then acc else acc ++ [i]) acc).map
        (fun i => (chunkKey uploadId i, chunkSliceOf file cs i)) := by
  intro idxs
  induction idxs with
  | nil => intro acc _ _; rfl
  | cons i rest ih =>
    intro acc hidx hacc
    have hi_lt : i < n := hidx i (List.mem_cons_self i rest)
    simp only [List.foldl_cons]
    have hstep : chunkEndpointPost
        (acc.map (fun j => (chunkKey uploadId j, chunkSliceOf file cs j))) uploadId i
        (chunkSliceOf file cs i) =
        ((if i ∈ acc then acc else acc ++ [i]).map
          (fun j => (chunkKey uploadId j, chunkSliceOf file cs j))) := by
      unfold chunkEndpointPost
      rw [if_neg hu]
      unfold blobPut
      by_cases hmem : i ∈ acc
      · have hany : (acc.map (fun j => (chunkKey uploadId j, chunkSliceOf file cs j))).any
            (fun b => b.1 == chunkKey uploadId i) = true := by
          rw [List.any_eq_true]
          exact ⟨(chunkKey uploadId i, chunkSliceOf file cs i),
            List.mem_map.mpr ⟨i, hmem, rfl⟩, by simp⟩
        rw [if_pos hany, if_pos hmem, List.map_map]
        refine List.map_congr_left ?_
        intro j hj
        simp only [Function.comp_apply]
        by_cases hji : chunkKey uploadId j = chunkKey uploadId i
        · have : j = i := hinj j i (hacc j hj) hi_lt hji
          subst this
          simp
        · have : ((chunkKey uploadId j, chunkSliceOf file cs j).1 ==
              chunkKey uploadId i) = false := by
            simp only [beq_eq_false_iff_ne, ne_eq]
            exact hji
          rw [this]
          simp
      · have hany : (acc.map (fun j => (chunkKey uploadId j, chunkSliceOf file cs j))).any
            (fun b => b.1 == chunkKey uploadId i) = false := by
          rw [List.any_eq_false]
          intro b hb
          rcases List.mem_map.mp hb with ⟨j, hj, rfl⟩
          simp only [beq_eq_false_iff_ne, ne_eq, Bool.not_eq_true]
          intro hji
          exact hmem ((hinj j i (hacc j hj) hi_lt hji) ▸ hj)
        rw [if_neg (by rw [hany]; exact Bool.false_ne_true), if_neg hmem, List.map_append]
        rfl
    rw [hstep]
    by_cases hmem : i ∈ acc
    · rw [if_pos hmem] at *
      exact ih acc (fun j hj => hidx j (List.mem_cons.mpr (Or.inr hj))) hacc
    · rw [if_neg hmem] at *
      refine ih (acc ++ [i]) (fun j hj => hidx j (List.mem_cons.mpr (Or.inr hj))) ?_
      intro j hj
      rcases List.mem_append.mp hj with h1 | h1
      · exact hacc j h1
      · rw [List.mem_singleton.mp h1]; exact hi_lt

theorem sendSeq_eq_firstOccur (file : List Nat) (cs : Nat) (uploadId : Str) (n : Nat)
    (hu : uploadId ≠ [])
    (hinj : ∀ i j, i < n → j < n → chunkKey uploadId i = chunkKey uploadId j → i = j)
    (idxs : List Nat) (hidx : ∀ i ∈ idxs, i < n) :
    sendSeq file cs uploadId idxs =
      (firstOccur idxs).map (fun i => (chunkKey uploadId i, chunkSliceOf file cs i)) := by
  unfold sendSeq firstOccur
  exact sendSeq_go file cs uploadId n hu hinj idxs [] hidx (by intro j hj; cases hj)

/-- C4: chunk sends are idempotent under retry.  Any send sequence keyed by
(uploadId, chunkIndex) stores at most one object per index and at most
totalChunks objects in all; once every index has been sent at least once —
duplicates included — completion still reassembles the original bytes. -/
theorem c4_idempotent_resend (uploadId : Str) (file : List Nat) (cs : Nat)
    (idxs : List Nat)
    (hcs : 0 < cs) (hu : uploadId ≠ [])
    (hparse : ∀ i < totalChunksOf file.length cs,
      parseChunkIndex (chunkKey uploadId i) = i)
    (hidx : ∀ i ∈ idxs, i < totalChunksOf file.length cs) :
    (sendSeq file cs uploadId idxs).length ≤ totalChunksOf file.length cs ∧
    (∀ i < totalChunksOf file.length cs,
      (sendSeq file cs uploadId idxs).countP
        (fun b => b.1 == chunkKey uploadId i) ≤ 1) ∧
    ((∀ i < totalChunksOf file.length cs, i ∈ idxs) →
      totalChunksOf file.length cs ≠ 0 →
      ∀ (fname : List Char) (cT : String), fname ≠ [] → cT ≠ "" →
        completeUpload (sendSeq file cs uploadId idxs)
            ⟨uploadId, fname, cT, totalChunksOf file.length cs⟩ =
          .ok file (sanitizeFilename fname) cT (totalChunksOf file.length cs)) := by
  have hinj : ∀ i j, i < totalChunksOf file.length cs →
      j < totalChunksOf file.length cs →
      chunkKey uploadId i = chunkKey uploadId j → i = j := by
    intro i j hi hj h
    have hpp := congrArg parseChunkIndex h
    rw [hparse i hi, hparse j hj] at hpp
    exact hpp
  have hmain := sendSeq_eq_firstOccur file cs uploadId _ hu hinj idxs hidx
  have hSnodup := firstOccur_nodup idxs
  have hSsub : ∀ i ∈ firstOccur idxs, i < totalChunksOf file.length cs :=
    fun i hi => hidx i (mem_firstOccur.mp hi)
  refine ⟨?_, ?_, ?_⟩
  · rw [hmain, List.length_map]
    have hsub2 : firstOccur idxs ⊆ List.range (totalChunksOf file.length cs) := by
      intro a ha; exact List.mem_range.mpr (hSsub a ha)
    have hle := (List.Nodup.subperm hSnodup hsub2).length_le
    simpa using hle
  · intro i hi
    rw [hmain, List.countP_map]
    have hcongr : (firstOccur idxs).countP
        ((fun b : Str × List Nat => b.1 == chunkKey uploadId i) ∘
          (fun j => (chunkKey uploadId j, chunkSliceOf file cs j))) =
        (firstOccur idxs).countP (fun j => j == i) := by
      apply List.countP_congr
      intro j hj
      simp only [Function.comp_apply]
      constructor
      · intro hb
        have hkey : chunkKey uploadId j = chunkKey uploadId i := beq_iff_eq.mp hb
        exact beq_iff_eq.mpr (hinj j i (hSsub j hj) hi hkey)
      · intro hb
        have hji : j = i := beq_iff_eq.mp hb
        subst hji; simp
    rw [hcongr]
    exact nodup_countP_le_one hSnodup i
  · intro hcov hn0 fname cT hf hct
    have hfilter : listChunks (sendSeq file cs uploadId idxs) uploadId =
        sendSeq file cs uploadId idxs := by
      unfold listChunks
      rw [List.filter_eq_self]
      intro b hb
      rw [hmain] at hb
      rcases List.mem_map.mp hb with ⟨j, _, rfl⟩
      exact chunkKey_startsWith uploadId j
    have hSperm : (firstOccur idxs).Perm (List.range (totalChunksOf file.length cs)) := by
      rw [List.perm_ext_iff_of_nodup hSnodup (List.nodup_range _)]
      intro a
      constructor
      · intro ha; exact List.mem_range.mpr (hSsub a ha)
      · intro ha
        exact mem_firstOccur.mpr (hcov a (List.mem_range.mp ha))
    have hperm : (listChunks (sendSeq file cs uploadId idxs) uploadId).Perm
        (canonChunks uploadId file cs (totalChunksOf file.length cs)) := by
      rw [hfilter, hmain]
      exact hSperm.map _
    exact completeUpload_of_perm_canon uploadId fname cT file cs _ hcs hu hf hct hn0
      hperm hparse

theorem c4_witness :
    (sendSeq [1, 2, 3] 2 "u1".data [0, 1, 0]).length ≤
      totalChunksOf ([1, 2, 3] : List Nat).length 2 ∧
    (∀ i < totalChunksOf ([1, 2, 3] : List Nat).length 2,
      (sendSeq [1, 2, 3] 2 "u1".data [0, 1, 0]).countP
        (fun b => b.1 == chunkKey "u1".data i) ≤ 1) ∧
    ((∀ i < totalChunksOf ([1, 2, 3] : List Nat).length 2, i ∈ ([0, 1, 0] : List Nat)) →
      totalChunksOf ([1, 2, 3] : List Nat).length 2 ≠ 0 →
      ∀ (fname : List Char) (cT : String), fname ≠ [] → cT ≠ "" →
        completeUpload (sendSeq [1, 2, 3] 2 "u1".data [0, 1, 0])
            ⟨"u1".data, fname, cT, totalChunksOf ([1, 2, 3] : List Nat).length 2⟩ =
          .ok [1, 2, 3] (sanitizeFilename fname) cT
            (totalChunksOf ([1, 2, 3] : List Nat).length 2)) :=
  c4_idempotent_resend "u1".data [1, 2, 3] 2 [0, 1, 0]
    (by decide) (by decide) (by decide) (by decide)

/-! ## Orphan sweep counting -/

theorem countP_or_disjoint {α : Type} (p q : α → Bool) :
    ∀ (l : List α), (∀ a ∈ l, p a = true → q a = false) →
      l.countP (fun a => p a || q a) = l.countP p + l.countP q := by
  intro l
  induction l with
  | nil => intro _; simp [List.countP_nil]
  | cons a t ih =>
    intro h
    have htail := ih (fun b hb => h b (List.mem_cons.mpr (Or.inr hb)))
    simp only [List.countP_cons, htail]
    by_cases hp : p a = true
    · have hq := h a (List.mem_cons_self a t) hp
      simp [hp, hq]
      omega
    · have hp2 : p a = false := Bool.eq_false_iff.mpr hp
      by_cases hq : q a = true
      · simp [hp2, hq]; omega
      · have hq2 : q a = false := Bool.eq_false_iff.mpr hq
        simp [hp2, hq2]

theorem inIds_nil (b : SweepBlob) : inIds [] b = false := by
  unfold inIds
  cases uploadIdOf b <;> simp [List.contains]

theorem inIds_cons (id : Str) (rest : List Str) (b : SweepBlob) :
    inIds (id :: rest) b = ((uploadIdOf b == some id) || inIds rest b) := by
  unfold inIds
  cases h : uploadIdOf b with
  | none => simp
  | some u =>
    simp only [List.contains_cons, Option.some_beq_some, Bool.or_comm, Bool.beq_comm]

theorem contains_eq_false_of_not_mem {l : List Str} {a : Str} (h : a ∉ l) :
    l.contains a = false := by
  rw [Bool.eq_false_iff]
  intro hc
  exact h (List.elem_iff.mp hc)

theorem count_split_orphan (now : Nat) (blobs : List SweepBlob) (id : Str)
    (rest : List Str) (hnotin : id ∉ rest)
    (horph : isOrphanGroup now blobs id = true) (K : SweepBlob → Bool) :
    (blobs.filter (fun b => inIds (id :: rest) b && sweepTargets now blobs b && K b)).length =
      ((groupOf blobs id).filter (fun b => K b)).length +
      (blobs.filter (fun b => inIds rest b && sweepTargets now blobs b && K b)).length := by
  rw [← List.countP_eq_length_filter, ← List.countP_eq_length_filter,
    ← List.countP_eq_length_filter]
  unfold groupOf
  rw [List.countP_filter]
  have hfun : (fun b => inIds (id :: rest) b && sweepTargets now blobs b && K b) =
      (fun b => ((uploadIdOf b == some id) && sweepTargets now blobs b && K b) ||
        (inIds rest b && sweepTargets now blobs b && K b)) := by
    funext b
    rw [inIds_cons]
    cases (uploadIdOf b == some id) <;> cases inIds rest b <;>
      cases sweepTargets now blobs b <;> cases K b <;> rfl
  rw [hfun]
  have hdisj : ∀ b ∈ blobs,
      ((uploadIdOf b == some id) && sweepTargets now blobs b && K b) = true →
      (inIds rest b && sweepTargets now blobs b && K b) = false := by
    intro b _ hA
    have huid : uploadIdOf b = some id := by
      have h1 : (uploadIdOf b == some id) = true := by
        cases hx : (uploadIdOf b == some id)
        · rw [hx] at hA; simp at hA
        · rfl
      exact beq_iff_eq.mp h1
    have hrest : inIds rest b = false := by
      unfold inIds
      rw [huid]
      exact contains_eq_false_of_not_mem hnotin
    rw [hrest]
    rfl
  rw [countP_or_disjoint _ _ blobs hdisj]
  congr 1
  apply List.countP_congr
  intro b _
  by_cases huid : uploadIdOf b = some id
  · have hA : (uploadIdOf b == some id) = true := beq_iff_eq.mpr huid
    have hT : sweepTargets now blobs b = true := by
      unfold sweepTargets
      rw [huid]
      exact horph
    rw [hA, hT]
    cases K b <;> simp
  · have hA : (uploadIdOf b == some id) = false := by
      rw [Bool.eq_false_iff]
      intro hx
      exact huid (beq_iff_eq.mp hx)
    rw [hA]
    cases K b <;> simp

theorem skip_young_pointwise (now : Nat) (blobs : List SweepBlob) (id : Str)
    (rest : List Str) (hnotin : id ∉ rest)
    (horph : isOrphanGroup now blobs id = false) (K : SweepBlob → Bool)
    (b : SweepBlob) :
    (inIds (id :: rest) b && sweepTargets now blobs b && K b) =
      (inIds rest b && sweepTargets now blobs b && K b) := by
  rw [inIds_cons]
  by_cases huid : uploadIdOf b = some id
  · have hT : sweepTargets now blobs b = false := by
      unfold sweepTargets
      rw [huid]
      exact horph
    have hrest : inIds rest b = false := by
      unfold inIds
      rw [huid]
      exact contains_eq_false_of_not_mem hnotin
    rw [hT, hrest]
    cases (uploadIdOf b == some id) <;> cases K b <;> rfl
  · have hA : (uploadIdOf b == some id) = false := by
      rw [Bool.eq_false_iff]
      intro hx
      exact huid (beq_iff_eq.mp hx)
    rw [hA]
    rfl

theorem store_split_orphan (now : Nat) (blobs : List SweepBlob) (id : Str)
    (rest : List Str) (hnotin : id ∉ rest)
    (horph : isOrphanGroup now blobs id = true) (K : SweepBlob → Bool)
    (store : List SweepBlob) :
    (store.filter (fun b => !(uploadIdOf b == some id && K b))).filter
        (fun b => !(inIds rest b && sweepTargets now blobs b && K b)) =
      store.filter (fun b => !(inIds (id :: rest) b && sweepTargets now blobs b && K b)) := by
  rw [List.filter_filter]
  apply List.filter_congr
  intro b _
  rw [inIds_cons]
  by_cases huid : uploadIdOf b = some id
  · have hA : (uploadIdOf b == some id) = true := beq_iff_eq.mpr huid
    have hT : sweepTargets now blobs b = true := by
      unfold sweepTargets
      rw [huid]
      exact horph
    have hrest : inIds rest b = false := by
      unfold inIds
      rw [huid]
      exact contains_eq_false_of_not_mem hnotin
    rw [hA, hT, hrest]
    cases K b <;> rfl
  · have hA : (uploadIdOf b == some id) = false := by
      rw [Bool.eq_false_iff]
      intro hx
      exact huid (beq_iff_eq.mp hx)
    rw [hA]
    cases inIds rest b <;> cases sweepTargets now blobs b <;> cases K b <;> rfl

theorem sweepGo_spec (now : Nat) (blobs : List SweepBlob) (delOk : Str → Bool) :
    ∀ (ids : List Str), ids.Nodup →
    ∀ (d f : Nat) (store : List SweepBlob),
      sweepGo now blobs delOk ids (d, f, store) =
        (d + (blobs.filter (fun b => inIds ids b && sweepTargets now blobs b &&
            delOk b.pathname)).length,
         f + (blobs.filter (fun b => inIds ids b && sweepTargets now blobs b &&
            !delOk b.pathname)).length,
         store.filter (fun b => !(inIds ids b && sweepTargets now blobs b &&
            delOk b.pathname))) := by
  intro ids
  induction ids with
  | nil =>
    intro _ d f store
    have hf1 : ∀ (K : SweepBlob → Bool),
        (fun b => inIds [] b && sweepTargets now blobs b && K b) =
          (fun _ : SweepBlob => false) := by
      intro K
      funext b
      rw [inIds_nil]
      rfl
    have hstore : (fun b => !(inIds [] b && sweepTargets now blobs b && delOk b.pathname)) =
        (fun _ : SweepBlob => true) := by
      funext b
      rw [inIds_nil]
      rfl
    simp only [sweepGo, hf1, List.filter_false, List.length_nil, Nat.add_zero, hstore,
      List.filter_true]
  | cons id rest ih =>
    intro hnd d f store
    rcases List.nodup_cons.mp hnd with ⟨hnotin, hndrest⟩
    simp only [sweepGo]
    by_cases horph : isOrphanGroup now blobs id = true
    · rw [if_pos horph, ih hndrest]
      simp only [Prod.mk.injEq]
      refine ⟨?_, ?_, ?_⟩
      · rw [count_split_orphan now blobs id rest hnotin horph (fun b => delOk b.pathname)]
        omega
      · rw [count_split_orphan now blobs id rest hnotin horph (fun b => !delOk b.pathname)]
        omega
      · exact store_split_orphan now blobs id rest hnotin horph
          (fun b => delOk b.pathname) store
    · have horph2 : isOrphanGroup now blobs id = false := Bool.eq_false_iff.mpr horph
      rw [if_neg horph, ih hndrest]
      have h1 : (fun b => inIds (id :: rest) b && sweepTargets now blobs b &&
          delOk b.pathname) = (fun b => inIds rest b && sweepTargets now blobs b &&
          delOk b.pathname) :=
        funext (skip_young_pointwise now blobs id rest hnotin horph2
          (fun b => delOk b.pathname))
      have h2 : (fun b => inIds (id :: rest) b && sweepTargets now blobs b &&
          !delOk b.pathname) = (fun b => inIds rest b && sweepTargets now blobs b &&
          !delOk b.pathname) :=
        funext (skip_young_pointwise now blobs id rest hnotin horph2
          (fun b => !delOk b.pathname))
      have h3 : (fun b : SweepBlob => !(inIds (id :: rest) b && sweepTargets now blobs b &&
          delOk b.pathname)) = (fun b => !(inIds rest b && sweepTargets now blobs b &&
          delOk b.pathname)) :=
        funext (fun b => by
          rw [skip_young_pointwise now blobs id rest hnotin horph2
            (fun b => delOk b.pathname) b])
      rw [h1, h2, h3]

theorem contains_eq_true_of_mem {l : List Str} {a : Str} (h : a ∈ l) :
    l.contains a = true :=
  List.elem_iff.mpr h

theorem groupIds_go_nodup :
    ∀ (bs : List SweepBlob) (acc : List Str), acc.Nodup →
      (bs.foldl (fun acc b =>
        match uploadIdOf b with
        | some id => if id ∈ acc then acc else acc ++ [id]
        | none => acc) acc).Nodup := by
  intro bs
  induction bs with
  | nil => intro acc h; exact h
  | cons b rest ih =>
    intro acc h
    simp only [List.foldl_cons]
    cases hu : uploadIdOf b with
    | none => exact ih acc h
    | some id =>
      dsimp only
      by_cases hmem : id ∈ acc
      · rw [if_pos hmem]; exact ih acc h
      · rw [if_neg hmem]
        refine ih (acc ++ [id]) ?_
        rw [List.nodup_append]
        refine ⟨h, List.nodup_singleton id, ?_⟩
        intro a ha hb
        rw [List.mem_singleton] at hb
        subst hb
        exact hmem ha

theorem mem_groupIds_go_mono (a : Str) :
    ∀ (bs : List SweepBlob) (acc : List Str), a ∈ acc →
      a ∈ bs.foldl (fun acc b =>
        match uploadIdOf b with
        | some id => if id ∈ acc then acc else acc ++ [id]
        | none => acc) acc := by
  intro bs
  induction bs with
  | nil => intro acc h; exact h
  | cons b rest ih =>
    intro acc h
    simp only [List.foldl_cons]
    cases hu : uploadIdOf b with
    | none => exact ih acc h
    | some id =>
      dsimp only
      by_cases hmem : id ∈ acc
      · rw [if_pos hmem]; exact ih acc h
      · rw [if_neg hmem]
        exact ih (acc ++ [id]) (List.mem_append.mpr (Or.inl h))

theorem mem_groupIds_go (id : Str) :
    ∀ (bs : List SweepBlob) (acc : List Str) (b : SweepBlob), b ∈ bs →
      uploadIdOf b = some id →
      id ∈ bs.foldl (fun acc b =>
        match uploadIdOf b with
        | some id => if id ∈ acc then acc else acc ++ [id]
        | none => acc) acc := by
  intro bs
  induction bs with
  | nil => intro acc b hb; cases hb
  | cons b0 rest ih =>
    intro acc b hb hu
    simp only [List.foldl_cons]
    rcases List.mem_cons.mp hb with h1 | h1
    · subst h1
      rw [hu]
      dsimp only
      by_cases hmem : id ∈ acc
      · rw [if_pos hmem]
        exact mem_groupIds_go_mono id rest acc hmem
      · rw [if_neg hmem]
        exact mem_groupIds_go_mono id rest (acc ++ [id])
          (List.mem_append.mpr (Or.inr (List.mem_singleton.mpr rfl)))
    · cases hu0 : uploadIdOf b0 with
      | none => exact ih acc b h1 hu
      | some id0 =>
        dsimp only
        by_cases hmem : id0 ∈ acc
        · rw [if_pos hmem]; exact ih acc b h1 hu
        · rw [if_neg hmem]; exact ih (acc ++ [id0]) b h1 hu

theorem groupIds_nodup (blobs : List SweepBlob) : (groupIds blobs).Nodup :=
  groupIds_go_nodup blobs [] List.nodup_nil

theorem mem_groupIds {blobs : List SweepBlob} {b : SweepBlob} {id : Str}
    (hb : b ∈ blobs) (hu : uploadIdOf b = some id) : id ∈ groupIds blobs :=
  mem_groupIds_go id blobs [] b hb hu

/-- C9: the orphan sweep deletes exactly the chunks of the groups whose
oldest blob is strictly older than the 24-hour threshold (those that the
delete call succeeds on), leaves every younger group untouched, and its
returned counts are the numbers of successful and failed deletions. -/
theorem c9_orphan_sweep (now : Nat) (blobs : List SweepBlob) (delOk : Str → Bool) :
    sweepOrphaned now blobs delOk =
      ((blobs.filter (fun b => sweepTargets now blobs b && delOk b.pathname)).length,
       (blobs.filter (fun b => sweepTargets now blobs b && !delOk b.pathname)).length,
       blobs.filter (fun b => !(sweepTargets now blobs b && delOk b.pathname))) := by
  unfold sweepOrphaned
  rw [sweepGo_spec now blobs delOk (groupIds blobs) (groupIds_nodup blobs) 0 0 blobs]
  have hpt : ∀ (K : SweepBlob → Bool), ∀ b ∈ blobs,
      (inIds (groupIds blobs) b && sweepTargets now blobs b && K b) =
      (sweepTargets now blobs b && K b) := by
    intro K b hb
    cases hu : uploadIdOf b with
    | none =>
      have hT : sweepTargets now blobs b = false := by
        unfold sweepTargets; rw [hu]
      have hin : inIds (groupIds blobs) b = false := by
        unfold inIds; rw [hu]
      rw [hT, hin]
      cases K b <;> rfl
    | some id =>
      have hin : inIds (groupIds blobs) b = true := by
        unfold inIds
        rw [hu]
        exact contains_eq_true_of_mem (mem_groupIds hb hu)
      rw [hin]
      cases sweepTargets now blobs b <;> cases K b <;> rfl
  simp only [Prod.mk.injEq]
  refine ⟨?_, ?_, ?_⟩
  · rw [List.filter_congr (hpt (fun b => delOk b.pathname))]
    omega
  · rw [List.filter_congr (hpt (fun b => !delOk b.pathname))]
    omega
  · apply List.filter_congr
    intro b hb
    rw [hpt (fun b => delOk b.pathname) b hb]

/-! ## Manager invariant preservation -/

theorem map_preserves_ids (files : List ChunkedFile) (g : ChunkedFile → ChunkedFile)
    (hg : ∀ f ∈ files, (g f).id = f.id) :
    (files.map g).map (fun f => f.id) = files.map (fun f => f.id) := by
  rw [List.map_map]
  exact List.map_congr_left (fun f hf => hg f hf)

theorem updFiles_ids (files : List ChunkedFile) (fid : Nat) (g : ChunkedFile → ChunkedFile)
    (hg : ∀ f, (g f).id = f.id) :
    (updFiles files fid g).map (fun f => f.id) = files.map (fun f => f.id) := by
  unfold updFiles
  apply map_preserves_ids
  intro f _
  by_cases h : f.id = fid
  · rw [if_pos h]; exact hg f
  · rw [if_neg h]

theorem mem_updFiles {files : List ChunkedFile} {fid : Nat} {g : ChunkedFile → ChunkedFile}
    {f' : ChunkedFile} (h : f' ∈ updFiles files fid g) :
    ∃ f ∈ files, f' = if f.id = fid then g f else f := by
  unfold updFiles at h
  rcases List.mem_map.mp h with ⟨f, hf, hgf⟩
  exact ⟨f, hf, hgf.symm⟩

theorem mem_updateQueuePositions {s : ManagerState} {f' : ChunkedFile}
    (h : f' ∈ (updateQueuePositions s).files) :
    ∃ f ∈ s.files, f' = f ∨
      ∃ i, f' = { f with status := .queued, queuePosition := some i } := by
  unfold updateQueuePositions at h
  simp only [List.mem_map] at h
  rcases h with ⟨f, hf, hgf⟩
  refine ⟨f, hf, ?_⟩
  split at hgf
  next i _ => exact Or.inr ⟨i, hgf.symm⟩
  next => exact Or.inl hgf.symm

theorem updateQueuePositions_ids (s : ManagerState) :
    ((updateQueuePositions s).files).map (fun f => f.id) =
      s.files.map (fun f => f.id) := by
  unfold updateQueuePositions
  apply map_preserves_ids
  intro f _
  split <;> rfl

theorem countCompleted_setChunkStatus_of_ne :
    ∀ (cs : List FileChunk) (idx : Nat) (st : ChunkStatus), st ≠ .completed →
      (∀ c, cs[idx]? = some c → c.status ≠ .completed) →
      countCompleted (setChunkStatus cs idx st) = countCompleted cs := by
  intro cs
  induction cs with
  | nil => intro idx st _ _; rfl
  | cons c rest ih =>
    intro idx st hst hold
    cases idx with
    | zero =>
      have hc : c.status ≠ .completed := hold c (by simp)
      unfold setChunkStatus countCompleted
      simp only [List.countP_cons]
      have h1 : (({ c with status := st } : FileChunk).status == ChunkStatus.completed) =
          false := by
        simp only [beq_eq_false_iff_ne, ne_eq]
        exact hst
      have h2 : (c.status == ChunkStatus.completed) = false := by
        simp only [beq_eq_false_iff_ne, ne_eq]
        exact hc
      rw [h1, h2]
    | succ n =>
      unfold setChunkStatus countCompleted
      simp only [List.countP_cons]
      have := ih n st hst (fun c2 h2 => hold c2 (by simpa using h2))
      unfold countCompleted at this
      rw [this]

theorem countCompleted_setChunkRetries :
    ∀ (cs : List FileChunk) (idx r : Nat),
      countCompleted (setChunkRetries cs idx r) = countCompleted cs := by
  intro cs
  induction cs with
  | nil => intro idx r; rfl
  | cons c rest ih =>
    intro idx r
    cases idx with
    | zero => rfl
    | succ n =>
      unfold setChunkRetries countCompleted
      simp only [List.countP_cons]
      have := ih n r
      unfold countCompleted at this
      rw [this]

theorem countCompleted_resetErrorChunks (cs : List FileChunk) :
    countCompleted (resetErrorChunks cs) = countCompleted cs := by
  unfold resetErrorChunks countCompleted
  rw [List.countP_map]
  apply List.countP_congr
  intro c _
  simp only [Function.comp_apply]
  by_cases h : c.status = .error
  · rw [if_pos h]
    simp [h]
  · rw [if_neg h]

theorem roundPct_zero (t : Nat) : roundPct 0 t = 0 := by
  unfold roundPct
  cases t with
  | zero => rfl
  | succ u =>
    apply Nat.div_eq_of_lt
    omega

theorem countCompleted_mkChunks (n : Nat) : countCompleted (mkChunks n) = 0 := by
  unfold countCompleted mkChunks
  rw [List.countP_eq_zero]
  intro c hc
  rcases List.mem_map.mp hc with ⟨i, _, rfl⟩
  simp

theorem find_unique {files : List ChunkedFile}
    (hnd : (files.map (fun f => f.id)).Nodup)
    {fid : Nat} {f f0 : ChunkedFile}
    (hfind : files.find? (fun g => g.id == fid) = some f0)
    (hf : f ∈ files) (hid : f.id = fid) : f = f0 := by
  have hf0mem := List.mem_of_find?_eq_some hfind
  have hf0id : f0.id = fid := by
    have hp := List.find?_some hfind
    exact beq_iff_eq.mp (by simpa using hp)
  exact List.inj_on_of_nodup_map hnd hf hf0mem (by rw [hid, hf0id])

theorem inv_initial (opts : ChunkUploadOptions) : ManagerInv (initialState opts) := by
  refine ⟨List.nodup_nil, ?_, ?_, ?_, ?_⟩
  · intro f hf; cases hf
  · intro f hf; cases hf
  · intro fid h; cases h
  · intro f hf; cases hf

theorem inv_updateQueuePositions {s : ManagerState} (h : ManagerInv s) :
    ManagerInv (updateQueuePositions s) := by
  obtain ⟨hnd, hlt, hup, hifa, hci⟩ := h
  refine ⟨?_, ?_, ?_, ?_, ?_⟩
  · rw [updateQueuePositions_ids]
    exact hnd
  · intro f hf
    rcases mem_updateQueuePositions hf with ⟨f0, hf0, hcase⟩
    rcases hcase with h1 | ⟨i, h1⟩
    · rw [h1]; exact hlt f0 hf0
    · rw [h1]; exact hlt f0 hf0
  · intro f hf hupl
    rcases mem_updateQueuePositions hf with ⟨f0, hf0, hcase⟩
    rcases hcase with h1 | ⟨i, h1⟩
    · rw [h1] at hupl
      rw [h1]
      exact hup f0 hf0 hupl
    · rw [h1] at hupl
      simp at hupl
  · intro fid hif
    exact hifa fid hif
  · intro f hf
    rcases mem_updateQueuePositions hf with ⟨f0, hf0, hcase⟩
    rcases hcase with h1 | ⟨i, h1⟩
    · rw [h1]; exact hci f0 hf0
    · rw [h1]; exact hci f0 hf0

theorem inv_updFiles {s : ManagerState} (h : ManagerInv s) (fid : Nat)
    (g : ChunkedFile → ChunkedFile)
    (hgid : ∀ f, (g f).id = f.id)
    (hgup : ∀ f ∈ s.files, f.id = fid → (g f).status = .uploading → f.status = .uploading)
    (hgci : ∀ f ∈ s.files, f.id = fid → chunkInv f → chunkInv (g f)) :
    ManagerInv { s with files := updFiles s.files fid g } := by
  obtain ⟨hnd, hlt, hup, hifa, hci⟩ := h
  refine ⟨?_, ?_, ?_, ?_, ?_⟩
  · rw [updFiles_ids s.files fid g hgid]; exact hnd
  · intro f hf
    rcases mem_updFiles hf with ⟨f0, hf0, hcase⟩
    by_cases hh : f0.id = fid
    · rw [if_pos hh] at hcase; rw [hcase, hgid f0]; exact hlt f0 hf0
    · rw [if_neg hh] at hcase; rw [hcase]; exact hlt f0 hf0
  · intro f hf hupl
    rcases mem_updFiles hf with ⟨f0, hf0, hcase⟩
    by_cases hh : f0.id = fid
    · rw [if_pos hh] at hcase
      rw [hcase] at hupl
      rw [hcase, hgid f0]
      exact hup f0 hf0 (hgup f0 hf0 hh hupl)
    · rw [if_neg hh] at hcase
      rw [hcase] at hupl
      rw [hcase]
      exact hup f0 hf0 hupl
  · exact fun fid' hif => hifa fid' hif
  · intro f hf
    rcases mem_updFiles hf with ⟨f0, hf0, hcase⟩
    by_cases hh : f0.id = fid
    · rw [if_pos hh] at hcase; rw [hcase]; exact hgci f0 hf0 hh (hci f0 hf0)
    · rw [if_neg hh] at hcase; rw [hcase]; exact hci f0 hf0

theorem inv_mapped {s : ManagerState} (h : ManagerInv s) (g : ChunkedFile → ChunkedFile)
    (hgid : ∀ f, (g f).id = f.id)
    (hgup : ∀ f ∈ s.files, (g f).status = .uploading → f.status = .uploading)
    (hgci : ∀ f ∈ s.files, chunkInv f → chunkInv (g f)) :
    ManagerInv { s with files := s.files.map g } := by
  obtain ⟨hnd, hlt, hup, hifa, hci⟩ := h
  refine ⟨?_, ?_, ?_, ?_, ?_⟩
  · rw [map_preserves_ids s.files g (fun f _ => hgid f)]; exact hnd
  · intro f hf
    rcases List.mem_map.mp hf with ⟨f0, hf0, rfl⟩
    rw [hgid f0]; exact hlt f0 hf0
  · intro f hf hupl
    rcases List.mem_map.mp hf with ⟨f0, hf0, rfl⟩
    rw [hgid f0]
    exact hup f0 hf0 (hgup f0 hf0 hupl)
  · exact fun fid' hif => hifa fid' hif
  · intro f hf
    rcases List.mem_map.mp hf with ⟨f0, hf0, rfl⟩
    exact hgci f0 hf0 (hci f0 hf0)

theorem inv_filter {s : ManagerState} (h : ManagerInv s) (p : ChunkedFile → Bool) :
    ManagerInv { s with files := s.files.filter p } := by
  obtain ⟨hnd, hlt, hup, hifa, hci⟩ := h
  refine ⟨?_, ?_, ?_, ?_, ?_⟩
  · exact List.Sublist.nodup ((List.filter_sublist s.files).map (fun f => f.id)) hnd
  · intro f hf; exact hlt f (List.mem_filter.mp hf).1
  · intro f hf hupl; exact hup f (List.mem_filter.mp hf).1 hupl
  · exact fun fid' hif => hifa fid' hif
  · intro f hf; exact hci f (List.mem_filter.mp hf).1

theorem inv_updateFileStatus {s : ManagerState} (h : ManagerInv s) (fid : Nat)
    (st : FileStatus) (pos : Option Nat) (hst : st ≠ .uploading) :
    ManagerInv { s with files := updateFileStatus s.files fid st pos } := by
  unfold updateFileStatus
  refine inv_updFiles h fid _ (fun f => rfl) ?_ ?_
  · intro f _ _ hu
    exact absurd hu hst
  · intro f _ _ hc
    exact hc

theorem inv_passContinue {t : ManagerState}
    (hnd : (t.files.map (fun f => f.id)).Nodup)
    (hlt : ∀ f ∈ t.files, f.id < t.nextId)
    (hci : ∀ f ∈ t.files, chunkInv f)
    (hnoup : ∀ f ∈ t.files, f.status ≠ .uploading) :
    ManagerInv (passContinue t) := by
  unfold passContinue
  apply inv_updateQueuePositions
  refine ⟨hnd, hlt, ?_, ?_, hci⟩
  · intro f hf hupl
    exact absurd hupl (hnoup f hf)
  · intro fid' _
    exact Or.inr rfl

theorem inv_of_fields {s t : ManagerState} (h : ManagerInv s)
    (hf : t.files = s.files) (hn : t.nextId = s.nextId)
    (ha : t.activeFileId = s.activeFileId) (hi : t.inFlight = s.inFlight) :
    ManagerInv t := by
  obtain ⟨hnd, hlt, hup, hifa, hci⟩ := h
  refine ⟨?_, ?_, ?_, ?_, ?_⟩
  · rw [hf]; exact hnd
  · intro f hfm
    rw [hf] at hfm
    rw [hn]
    exact hlt f hfm
  · intro f hfm hupl
    rw [hf] at hfm
    rw [ha]
    exact hup f hfm hupl
  · intro fid hif
    rw [hi] at hif
    rw [ha]
    exact hifa fid hif
  · intro f hfm
    rw [hf] at hfm
    exact hci f hfm

theorem inv_setActiveStatus {s : ManagerState} (h : ManagerInv s) {fid : Nat}
    (st : FileStatus) (hst : st ≠ .uploading)
    {t : ManagerState}
    (hf : t.files = updateFileStatus s.files fid st none)
    (ha : t.activeFileId = s.activeFileId)
    (hi : t.inFlight = s.inFlight) (hn : t.nextId = s.nextId) :
    ManagerInv t := by
  have h1 : ManagerInv { s with files := updateFileStatus s.files fid st none } :=
    inv_updateFileStatus h fid st none hst
  exact inv_of_fields h1 hf hn ha hi

theorem inv_startUpload {s : ManagerState} (h : ManagerInv s) :
    ManagerInv (startUpload s) := by
  unfold startUpload
  apply inv_updateQueuePositions
  exact inv_of_fields h rfl rfl rfl rfl

theorem inv_pauseAll {s : ManagerState} (h : ManagerInv s) :
    ManagerInv (pauseAll s) := by
  unfold pauseAll
  cases hact : s.activeFileId with
  | none =>
    simp only [hact]
    exact inv_of_fields h rfl rfl hact.symm rfl
  | some fid =>
    simp only [hact]
    exact inv_setActiveStatus h .paused (fun hx => FileStatus.noConfusion hx)
      rfl hact.symm rfl rfl

theorem inv_resumeAll {s : ManagerState} (h : ManagerInv s) :
    ManagerInv (resumeAll s) := by
  unfold resumeAll
  cases hact : s.activeFileId with
  | none =>
    simp only [hact]
    exact inv_of_fields h rfl rfl hact.symm rfl
  | some fid =>
    simp only [hact]
    cases hfind : s.files.find? (fun f => f.id == fid) with
    | none =>
      simp only [hfind]
      exact inv_of_fields h rfl rfl hact.symm rfl
    | some f =>
      simp only [hfind]
      by_cases hst : f.status = .paused
      · rw [if_pos hst]
        exact inv_setActiveStatus h .pending (fun hx => FileStatus.noConfusion hx)
          rfl hact.symm rfl rfl
      · rw [if_neg hst]
        exact inv_of_fields h rfl rfl hact.symm rfl

theorem inv_clearCompleted {s : ManagerState} (h : ManagerInv s) :
    ManagerInv (clearCompleted s) := by
  unfold clearCompleted
  apply inv_updateQueuePositions
  exact inv_filter h _

theorem inv_retryFailed {s : ManagerState} (h : ManagerInv s) :
    ManagerInv (retryFailed s) := by
  unfold retryFailed
  apply inv_updateQueuePositions
  refine inv_mapped h retryFailedReset ?_ ?_ ?_
  · intro f
    unfold retryFailedReset
    split <;> rfl
  · intro f _ hupl
    unfold retryFailedReset at hupl
    split at hupl
    · exact absurd hupl (fun hx => FileStatus.noConfusion hx)
    · exact hupl
  · intro f _ hc
    unfold retryFailedReset
    split
    next hh =>
      refine ⟨rfl, ?_⟩
      show f.progress = roundPct (countCompleted (resetErrorChunks f.chunks)) f.totalChunks
      rw [countCompleted_resetErrorChunks]
      exact hc.2
    next => exact hc

theorem inv_cancelAll {s : ManagerState} (h : ManagerInv s) :
    ManagerInv (cancelAll s) := by
  obtain ⟨hnd, hlt, hup, hifa, hci⟩ := h
  unfold cancelAll
  apply inv_updateQueuePositions
  refine ⟨?_, ?_, ?_, ?_, ?_⟩
  · rw [map_preserves_ids s.files cancelReset
      (fun f _ => by unfold cancelReset; split <;> rfl)]
    exact hnd
  · intro f hf
    dsimp only at hf ⊢
    rcases List.mem_map.mp hf with ⟨f0, hf0, rfl⟩
    have hid : (cancelReset f0).id = f0.id := by unfold cancelReset; split <;> rfl
    rw [hid]
    exact hlt f0 hf0
  · intro f hf hupl
    dsimp only at hf
    rcases List.mem_map.mp hf with ⟨f0, hf0, rfl⟩
    exfalso
    unfold cancelReset at hupl
    split at hupl
    next => exact FileStatus.noConfusion hupl
    next hh => exact hh (Or.inl hupl)
  · intro fid hif
    exact Or.inr rfl
  · intro f hf
    dsimp only at hf
    rcases List.mem_map.mp hf with ⟨f0, hf0, rfl⟩
    unfold cancelReset
    split
    · exact hci f0 hf0
    · exact hci f0 hf0

theorem inv_addFiles {s : ManagerState} (h : ManagerInv s) (sizes : List Nat) :
    ManagerInv (addFiles s sizes) := by
  obtain ⟨hnd, hlt, hup, hifa, hci⟩ := h
  unfold addFiles
  apply inv_updateQueuePositions
  refine ⟨?_, ?_, ?_, ?_, ?_⟩
  · dsimp only
    rw [List.map_append, List.nodup_append]
    refine ⟨hnd, ?_, ?_⟩
    · rw [newFiles_map_id]
      exact List.Nodup.map (fun a b hab => by omega) (List.nodup_range _)
    · intro a ha hb
      rcases List.mem_map.mp ha with ⟨f, hf, rfl⟩
      rw [newFiles_map_id] at hb
      rcases List.mem_map.mp hb with ⟨k, hk, hfa⟩
      have := hlt f hf
      omega
  · intro f hf
    dsimp only at hf ⊢
    rcases List.mem_append.mp hf with hf | hf
    · have := hlt f hf
      omega
    · rcases List.mem_map.mp hf with ⟨p, hp, rfl⟩
      have h1 : p.1 ∈ sizes.enum.map Prod.fst := List.mem_map_of_mem _ hp
      rw [List.enum_map_fst] at h1
      have h2 := List.mem_range.mp h1
      show s.nextId + p.1 < s.nextId + sizes.length
      omega
  · intro f hf hupl
    dsimp only at hf ⊢
    rcases List.mem_append.mp hf with hf | hf
    · exact hup f hf hupl
    · rcases List.mem_map.mp hf with ⟨p, hp, rfl⟩
      exfalso
      have hs : (mkChunkedFile (s.nextId + p.1) p.2 s.opts.chunkSize s.activeFileId).status =
          if s.activeFileId.isSome then FileStatus.queued else FileStatus.pending := rfl
      rw [hs] at hupl
      by_cases hh : s.activeFileId.isSome
      · rw [if_pos hh] at hupl
        exact FileStatus.noConfusion hupl
      · rw [if_neg hh] at hupl
        exact FileStatus.noConfusion hupl
  · intro fid hif
    exact hifa fid hif
  · intro f hf
    dsimp only at hf
    rcases List.mem_append.mp hf with hf | hf
    · exact hci f hf
    · rcases List.mem_map.mp hf with ⟨p, hp, rfl⟩
      refine ⟨?_, ?_⟩
      · show (0 : Nat) = countCompleted (mkChunks (totalChunksOf p.2 s.opts.chunkSize))
        rw [countCompleted_mkChunks]
      · show (0 : Nat) =
          roundPct (countCompleted (mkChunks (totalChunksOf p.2 s.opts.chunkSize)))
            (totalChunksOf p.2 s.opts.chunkSize)
        rw [countCompleted_mkChunks, roundPct_zero]

theorem inv_abortUpload {s : ManagerState} (fid : Nat) (h : ManagerInv s) :
    ManagerInv (abortUpload s fid) := by
  obtain ⟨hnd, hlt, hup, hifa, hci⟩ := h
  unfold abortUpload
  dsimp only
  by_cases hcond : s.activeFileId = some fid
  · rw [if_pos hcond]
    refine ⟨?_, ?_, ?_, ?_, ?_⟩
    · show ((updateFileStatus s.files fid .pending none).map (fun f => f.id)).Nodup
      unfold updateFileStatus
      rw [updFiles_ids]
      · exact hnd
      · intro f
        rfl
    · intro f hf
      unfold updateFileStatus at hf
      rcases mem_updFiles hf with ⟨f0, hf0, hcase⟩
      by_cases hh : f0.id = fid
      · rw [if_pos hh] at hcase; rw [hcase]; exact hlt f0 hf0
      · rw [if_neg hh] at hcase; rw [hcase]; exact hlt f0 hf0
    · intro f hf hupl
      exfalso
      unfold updateFileStatus at hf
      rcases mem_updFiles hf with ⟨f0, hf0, hcase⟩
      by_cases hh : f0.id = fid
      · rw [if_pos hh] at hcase
        rw [hcase] at hupl
        exact FileStatus.noConfusion hupl
      · rw [if_neg hh] at hcase
        rw [hcase] at hupl
        have ha := hup f0 hf0 hupl
        rw [hcond] at ha
        exact hh (Option.some.inj ha).symm
    · intro fid' hif
      exact Or.inr rfl
    · intro f hf
      unfold updateFileStatus at hf
      rcases mem_updFiles hf with ⟨f0, hf0, hcase⟩
      by_cases hh : f0.id = fid
      · rw [if_pos hh] at hcase; rw [hcase]; exact hci f0 hf0
      · rw [if_neg hh] at hcase; rw [hcase]; exact hci f0 hf0
  · rw [if_neg hcond]
    exact inv_updateFileStatus ⟨hnd, hlt, hup, hifa, hci⟩ fid .pending none
      (fun hx => FileStatus.noConfusion hx)

theorem inv_removeFile {s : ManagerState} (fid : Nat) (h : ManagerInv s) :
    ManagerInv (removeFile s fid) := by
  unfold removeFile
  dsimp only
  apply inv_updateQueuePositions
  by_cases hcond :
      (s.files.any (fun f => f.id == fid) && s.activeFileId == some fid) = true
  · rw [if_pos hcond]
    exact inv_filter (inv_abortUpload fid h) _
  · rw [if_neg hcond]
    exact inv_filter h _

theorem inv_startPassRun {s : ManagerState} (fid : Nat) (h : ManagerInv s)
    (hact : s.activeFileId = none) :
    ManagerInv (startPassRunState s fid) := by
  obtain ⟨hnd, hlt, hup, hifa, hci⟩ := h
  unfold startPassRunState updateFileStatus
  refine ⟨?_, ?_, ?_, ?_, ?_⟩
  · show ((updFiles s.files fid _).map (fun f => f.id)).Nodup
    rw [updFiles_ids]
    · exact hnd
    · intro f
      rfl
  · intro f hf
    rcases mem_updFiles hf with ⟨f0, hf0, hcase⟩
    by_cases hh : f0.id = fid
    · rw [if_pos hh] at hcase; rw [hcase]; exact hlt f0 hf0
    · rw [if_neg hh] at hcase; rw [hcase]; exact hlt f0 hf0
  · intro f hf hupl
    rcases mem_updFiles hf with ⟨f0, hf0, hcase⟩
    by_cases hh : f0.id = fid
    · rw [if_pos hh] at hcase
      rw [hcase]
      show some fid = some f0.id
      rw [hh]
    · rw [if_neg hh] at hcase
      rw [hcase] at hupl
      have := hup f0 hf0 hupl
      rw [hact] at this
      exact Option.noConfusion this
  · intro fid' hif
    have hh : fid = fid' := Option.some.inj hif
    rw [← hh]
    exact Or.inl rfl
  · intro f hf
    rcases mem_updFiles hf with ⟨f0, hf0, hcase⟩
    by_cases hh : f0.id = fid
    · rw [if_pos hh] at hcase; rw [hcase]; exact hci f0 hf0
    · rw [if_neg hh] at hcase; rw [hcase]; exact hci f0 hf0

theorem inv_startPassSkip {s : ManagerState} (fid : Nat) (h : ManagerInv s)
    (hact : s.activeFileId = none) :
    ManagerInv (startPassSkipState s fid) := by
  obtain ⟨hnd, hlt, hup, hifa, hci⟩ := h
  unfold startPassSkipState
  refine inv_passContinue hnd hlt hci ?_
  intro f hf hupl
  have := hup f hf hupl
  rw [hact] at this
  exact Option.noConfusion this

theorem inv_finishTerminal {s : ManagerState} {fid : Nat} (h : ManagerInv s)
    (hif : s.inFlight = some fid) (st : FileStatus) (hst : st ≠ .uploading) :
    ManagerInv (passContinue
      { s with files := updateFileStatus s.files fid st none, inFlight := none }) := by
  obtain ⟨hnd, hlt, hup, hifa, hci⟩ := h
  refine inv_passContinue ?_ ?_ ?_ ?_
  · show ((updateFileStatus s.files fid st none).map (fun f => f.id)).Nodup
    unfold updateFileStatus
    rw [updFiles_ids]
    · exact hnd
    · intro f
      rfl
  · intro f hf
    unfold updateFileStatus at hf
    rcases mem_updFiles hf with ⟨f0, hf0, hcase⟩
    by_cases hh : f0.id = fid
    · rw [if_pos hh] at hcase; rw [hcase]; exact hlt f0 hf0
    · rw [if_neg hh] at hcase; rw [hcase]; exact hlt f0 hf0
  · intro f hf
    unfold updateFileStatus at hf
    rcases mem_updFiles hf with ⟨f0, hf0, hcase⟩
    by_cases hh : f0.id = fid
    · rw [if_pos hh] at hcase; rw [hcase]; exact hci f0 hf0
    · rw [if_neg hh] at hcase; rw [hcase]; exact hci f0 hf0
  · intro f hf hupl
    unfold updateFileStatus at hf
    rcases mem_updFiles hf with ⟨f0, hf0, hcase⟩
    by_cases hh : f0.id = fid
    · rw [if_pos hh] at hcase
      rw [hcase] at hupl
      exact hst hupl
    · rw [if_neg hh] at hcase
      rw [hcase] at hupl
      have ha := hup f0 hf0 hupl
      rcases hifa fid hif with h2 | h2
      · rw [h2] at ha
        exact hh (Option.some.inj ha).symm
      · rw [h2] at ha
        exact Option.noConfusion ha

theorem inv_finishCompleted {s : ManagerState} {fid : Nat} (h : ManagerInv s)
    (hif : s.inFlight = some fid) :
    ManagerInv (finishCompletedState s fid) :=
  inv_finishTerminal h hif .completed (fun hx => FileStatus.noConfusion hx)

theorem inv_finishError {s : ManagerState} {fid : Nat} (h : ManagerInv s)
    (hif : s.inFlight = some fid) :
    ManagerInv (finishErrorState s fid) :=
  inv_finishTerminal h hif .error (fun hx => FileStatus.noConfusion hx)

theorem inv_finishAborted {s : ManagerState} (h : ManagerInv s)
    (hact : s.activeFileId = none) :
    ManagerInv (finishAbortedState s) := by
  obtain ⟨hnd, hlt, hup, hifa, hci⟩ := h
  unfold finishAbortedState
  refine inv_passContinue hnd hlt hci ?_
  intro f hf hupl
  have := hup f hf hupl
  rw [hact] at this
  exact Option.noConfusion this

theorem inv_chunkSendStart {s : ManagerState} {fid idx : Nat} {f : ChunkedFile}
    {c : FileChunk} (h : ManagerInv s)
    (hfind : s.files.find? (fun g => g.id == fid) = some f)
    (hc : f.chunks[idx]? = some c) (hcne : c.status ≠ .completed) :
    ManagerInv (chunkSendStartState s fid idx) := by
  have hnd := h.1
  unfold chunkSendStartState updateChunkStatus
  refine inv_updFiles h fid _ (fun g => rfl) ?_ ?_
  · intro g _ _ hupl
    exact hupl
  · intro g hg hgid hcig
    have hgf : g = f := find_unique hnd hfind hg hgid
    subst hgf
    have hnotc : ∀ c2, g.chunks[idx]? = some c2 → c2.status ≠ .completed := by
      intro c2 hc2
      have hce : c2 = c := by
        rw [hc] at hc2
        exact (Option.some.inj hc2).symm
      rw [hce]
      exact hcne
    have hcc := countCompleted_setChunkStatus_of_ne g.chunks idx .uploading
      (fun hx => ChunkStatus.noConfusion hx) hnotc
    refine ⟨rfl, ?_⟩
    show g.progress =
      roundPct (countCompleted (setChunkStatus g.chunks idx .uploading)) g.totalChunks
    rw [hcc]
    exact hcig.2

theorem inv_chunkSendOk {s : ManagerState} (fid idx : Nat) (h : ManagerInv s) :
    ManagerInv (chunkSendOkState s fid idx) := by
  obtain ⟨hnd, hlt, hup, hifa, hci⟩ := h
  unfold chunkSendOkState updateFileProgress updateChunkStatus
  refine ⟨?_, ?_, ?_, ?_, ?_⟩
  · show ((updFiles (updFiles s.files fid _) fid _).map (fun f => f.id)).Nodup
    rw [updFiles_ids, updFiles_ids]
    · exact hnd
    · intro f
      rfl
    · intro f
      rfl
  · intro f hf
    rcases mem_updFiles hf with ⟨f1, hf1, hcase1⟩
    rcases mem_updFiles hf1 with ⟨f0, hf0, hcase0⟩
    have hid1 : f.id = f1.id := by rw [hcase1]; split <;> rfl
    have hid0 : f1.id = f0.id := by rw [hcase0]; split <;> rfl
    rw [hid1, hid0]
    exact hlt f0 hf0
  · intro f hf hupl
    rcases mem_updFiles hf with ⟨f1, hf1, hcase1⟩
    rcases mem_updFiles hf1 with ⟨f0, hf0, hcase0⟩
    have hid1 : f.id = f1.id := by rw [hcase1]; split <;> rfl
    have hid0 : f1.id = f0.id := by rw [hcase0]; split <;> rfl
    have hst1 : f.status = f1.status := by rw [hcase1]; split <;> rfl
    have hst0 : f1.status = f0.status := by rw [hcase0]; split <;> rfl
    rw [hid1, hid0]
    rw [hst1, hst0] at hupl
    exact hup f0 hf0 hupl
  · intro fid' hif
    exact hifa fid' hif
  · intro f hf
    rcases mem_updFiles hf with ⟨f1, hf1, hcase1⟩
    by_cases hh : f1.id = fid
    · rw [if_pos hh] at hcase1
      rw [hcase1]
      exact ⟨rfl, rfl⟩
    · rw [if_neg hh] at hcase1
      rcases mem_updFiles hf1 with ⟨f0, hf0, hcase0⟩
      by_cases hh0 : f0.id = fid
      · rw [if_pos hh0] at hcase0
        exfalso
        apply hh
        rw [hcase0]
        exact hh0
      · rw [if_neg hh0] at hcase0
        rw [hcase1, hcase0]
        exact hci f0 hf0

theorem inv_chunkSendFail {s : ManagerState} {fid idx : Nat} {f : ChunkedFile}
    {c : FileChunk} (h : ManagerInv s)
    (hfind : s.files.find? (fun g => g.id == fid) = some f)
    (hc : f.chunks[idx]? = some c) (hcs : c.status = .uploading) :
    ManagerInv (chunkSendFailState s fid idx) := by
  have hnd := h.1
  unfold chunkSendFailState updateChunkStatus
  refine inv_updFiles h fid _ (fun g => rfl) ?_ ?_
  · intro g _ _ hupl
    exact hupl
  · intro g hg hgid hcig
    have hgf : g = f := find_unique hnd hfind hg hgid
    subst hgf
    have hnotc : ∀ c2, g.chunks[idx]? = some c2 → c2.status ≠ .completed := by
      intro c2 hc2
      have hce : c2 = c := by
        rw [hc] at hc2
        exact (Option.some.inj hc2).symm
      rw [hce, hcs]
      exact fun hx => ChunkStatus.noConfusion hx
    have hcc := countCompleted_setChunkStatus_of_ne g.chunks idx .error
      (fun hx => ChunkStatus.noConfusion hx) hnotc
    refine ⟨rfl, ?_⟩
    show g.progress =
      roundPct (countCompleted (setChunkStatus g.chunks idx .error)) g.totalChunks
    rw [hcc]
    exact hcig.2

theorem inv_chunkRetry {s : ManagerState} (fid idx r : Nat) (h : ManagerInv s) :
    ManagerInv (chunkRetryState s fid idx r) := by
  unfold chunkRetryState updateChunkRetries
  refine inv_updFiles h fid _ (fun g => rfl) ?_ ?_
  · intro g _ _ hupl
    exact hupl
  · intro g _ _ hcig
    refine ⟨?_, ?_⟩
    · show g.uploadedChunks = countCompleted (setChunkRetries g.chunks idx r)
      rw [countCompleted_setChunkRetries]
      exact hcig.1
    · show g.progress =
        roundPct (countCompleted (setChunkRetries g.chunks idx r)) g.totalChunks
      rw [countCompleted_setChunkRetries]
      exact hcig.2

theorem inv_step {s s' : ManagerState} (h : ManagerInv s) (hstep : Step s s') :
    ManagerInv s' := by
  cases hstep with
  | opAddFiles sizes => exact inv_addFiles h sizes
  | opRemoveFile fid => exact inv_removeFile fid h
  | opStartUpload => exact inv_startUpload h
  | opPauseAll => exact inv_pauseAll h
  | opResumeAll => exact inv_resumeAll h
  | opRetryFailed => exact inv_retryFailed h
  | opCancelAll => exact inv_cancelAll h
  | opClearCompleted => exact inv_clearCompleted h
  | schedStartRun fid rest f hif hp hact hq hfind hnc hnu =>
    exact inv_startPassRun fid h hact
  | schedStartSkip fid rest hif hp hact hq hcases =>
    exact inv_startPassSkip fid h hact
  | schedFinishCompleted fid hif => exact inv_finishCompleted h hif
  | schedFinishError fid hif => exact inv_finishError h hif
  | schedFinishAborted fid hif hact => exact inv_finishAborted h hact
  | schedChunkStart fid idx f c hif hfind hc hcne =>
    exact inv_chunkSendStart h hfind hc hcne
  | schedChunkOk fid idx => exact inv_chunkSendOk fid idx h
  | schedChunkFail fid idx f c hfind hc hcs =>
    exact inv_chunkSendFail h hfind hc hcs
  | schedChunkRetry fid idx r => exact inv_chunkRetry fid idx r h

theorem reachable_inv {opts : ChunkUploadOptions} {s : ManagerState}
    (h : Reachable opts s) : ManagerInv s := by
  induction h with
  | init => exact inv_initial opts
  | step hr hstep ih => exact inv_step ih hstep

/-- C2: in every reachable manager state — after any sequence of public
operations and scheduler steps — at most one managed file has status
`uploading`; every `uploading` file is the active file (so no two files'
chunk phases overlap), and every file's status is one of `pending`,
`queued`, `uploading`, `paused`, `completed`, `error`. -/
theorem c2_single_active_upload {opts : ChunkUploadOptions} {s : ManagerState}
    (h : Reachable opts s) :
    (s.files.filter (fun f => f.status == .uploading)).length ≤ 1 ∧
    (∀ f ∈ s.files, f.status = .uploading → s.activeFileId = some f.id) ∧
    (∀ f ∈ s.files,
      f.status = .pending ∨ f.status = .queued ∨ f.status = .uploading ∨
      f.status = .paused ∨ f.status = .completed ∨ f.status = .error) := by
  obtain ⟨hnd, hlt, hup, hifa, hci⟩ := reachable_inv h
  refine ⟨?_, ?_, ?_⟩
  · cases hne : s.files.filter (fun f => f.status == .uploading) with
    | nil => simp
    | cons f0 t =>
      have hf0mem : f0 ∈ s.files.filter (fun f => f.status == .uploading) := by
        rw [hne]
        exact List.mem_cons_self _ _
      have hall : ∀ g ∈ f0 :: t, g.id = f0.id := by
        intro g hg
        have hgmem : g ∈ s.files.filter (fun f => f.status == .uploading) := by
          rw [hne]
          exact hg
        have hgf := List.mem_filter.mp hgmem
        have hf0f := List.mem_filter.mp hf0mem
        have ha1 := hup g hgf.1 (beq_iff_eq.mp hgf.2)
        have ha2 := hup f0 hf0f.1 (beq_iff_eq.mp hf0f.2)
        rw [ha1] at ha2
        exact Option.some.inj ha2
      have hndl : ((f0 :: t).map (fun f => f.id)).Nodup := by
        rw [← hne]
        exact List.Sublist.nodup (List.Sublist.map _ (List.filter_sublist _)) hnd
      cases t with
      | nil => simp
      | cons g u =>
        exfalso
        have h2 : g.id = f0.id := hall g (by simp)
        have hmem : f0.id ∈ (g :: u).map (fun f => f.id) := by
          rw [List.map_cons, h2]
          exact List.mem_cons_self _ _
        exact (List.nodup_cons.mp hndl).1 hmem
  · intro f hf hupl
    exact hup f hf hupl
  · intro f hf
    cases hs : f.status <;> simp [hs]

theorem c2_witness :
    (((initialState defaultOptions).files.filter
        (fun f => f.status == .uploading)).length ≤ 1 ∧
     (∀ f ∈ (initialState defaultOptions).files, f.status = .uploading →
        (initialState defaultOptions).activeFileId = some f.id) ∧
     (∀ f ∈ (initialState defaultOptions).files,
        f.status = .pending ∨ f.status = .queued ∨ f.status = .uploading ∨
        f.status = .paused ∨ f.status = .completed ∨ f.status = .error)) :=
  c2_single_active_upload Reachable.init

/-- C6: in every reachable state, every managed file's `uploadedChunks`
equals the number of its chunks whose status is `completed`, and `progress`
is the rounded percentage `round(uploadedChunks / totalChunks * 100)`; and
every further operation or scheduler step (in particular the ones that
change a chunk's status: chunk completion, chunk failure, retryFailed)
preserves both equalities. -/
theorem c6_progress_invariant {opts : ChunkUploadOptions} {s : ManagerState}
    (h : Reachable opts s) :
    (∀ f ∈ s.files, f.uploadedChunks = countCompleted f.chunks ∧
       f.progress = roundPct (countCompleted f.chunks) f.totalChunks) ∧
    (∀ s', Step s s' → ∀ f ∈ s'.files,
       f.uploadedChunks = countCompleted f.chunks ∧
       f.progress = roundPct (countCompleted f.chunks) f.totalChunks) := by
  have hinv := reachable_inv h
  refine ⟨?_, ?_⟩
  · intro f hf
    exact hinv.2.2.2.2 f hf
  · intro s' hstep f hf
    exact (inv_step hinv hstep).2.2.2.2 f hf

theorem c6_witness :
    (∀ f ∈ (addFiles (initialState defaultOptions) [5]).files,
       f.uploadedChunks = countCompleted f.chunks ∧
       f.progress = roundPct (countCompleted f.chunks) f.totalChunks) ∧
    (∀ s', Step (addFiles (initialState defaultOptions) [5]) s' →
       ∀ f ∈ s'.files,
         f.uploadedChunks = countCompleted f.chunks ∧
         f.progress = roundPct (countCompleted f.chunks) f.totalChunks) :=
  c6_progress_invariant
    (Reachable.step Reachable.init (Step.opAddFiles (initialState defaultOptions) [5]))
